import Mathlib

/-!
Verification of the basebase-js client SDK core (path resolution, value
codec, reference model, query constraint model, query execution engine)
against its natural-language specification.

The TypeScript sources are shallowly embedded:
* JavaScript runtime values are modelled by the inductive `JsValue`
  (numbers as `Rat`, excluding `NaN`/`Infinity`; objects and arrays as
  structural trees — adequate for all claims that do not concern
  aliasing; a heap-based model with explicit references is used for the
  snapshot-isolation claim, see the `Heap` section).
* Functions that `throw new BasebaseError(...)` become functions into
  `Except BasebaseError _`.
* `string.split(sep)` is embedded as `splitJs`, reproducing the
  JavaScript semantics (`"" ↦ [""]`, empty segments kept).
-/

set_option maxHeartbeats 1000000

namespace Basebase

/-! ## Error model (src/types.ts, `BASEBASE_ERROR_CODES`, `BasebaseError`) -/

/-- Error code strings, as in `BASEBASE_ERROR_CODES` of src/types.ts. -/
def PERMISSION_DENIED : String := "permission-denied"

def NOT_FOUND : String := "not-found"

def ALREADY_EXISTS : String := "already-exists"

def INVALID_ARGUMENT : String := "invalid-argument"

def UNAUTHENTICATED : String := "unauthenticated"

def UNAVAILABLE : String := "unavailable"

def INTERNAL : String := "internal"

def NETWORK_ERROR : String := "network-error"

/-- `BasebaseError` carries a code string and a message. -/
structure BasebaseError where
  code : String
  message : String
deriving DecidableEq, Repr

/-! ## JavaScript value model

JS numbers are modelled as rationals (every finite double is a rational;
`NaN`/`Infinity` are outside the model).  Objects are ordered key/value
lists: JavaScript objects preserve string-key insertion order and can
never hold a duplicate key, so lookups use the first occurrence.
`Date` values carry their epoch-milliseconds timestamp. -/

inductive JsValue where
  | vUndef : JsValue
  | vNull : JsValue
  | vBool (b : Bool) : JsValue
  | vNum (n : Rat) : JsValue
  | vStr (s : String) : JsValue
  | vDate (t : Int) : JsValue
  | vArr (xs : List JsValue) : JsValue
  | vObj (fields : List (String × JsValue)) : JsValue

open JsValue

/-- A `BasebaseDocumentData` (string-keyed plain object, src/types.ts). -/
abbrev JsDoc := List (String × JsValue)

/-- First-occurrence field lookup in an object (JS property read; real JS
objects never hold duplicate keys, so the occurrence choice is moot). -/
def findField (k : String) : List (String × JsValue) → Option JsValue
  | [] => none
  | (k', v) :: rest => if k' = k then some v else findField k rest

/-- JS strict equality `===` restricted to the model: structural on
primitives; `false` between distinct arrays/objects/dates, which in
JavaScript compare by reference and here stand for distinct allocations
(a query value and a fetched document field are never the same
reference).  `NaN` is outside the model, so this also serves as
SameValueZero (the algorithm behind `Array.prototype.includes`). -/
def jsStrictEq : JsValue → JsValue → Bool
  | vUndef, vUndef => true
  | vNull, vNull => true
  | vBool a, vBool b => a = b
  | vNum a, vNum b => a = b
  | vStr a, vStr b => a = b
  | _, _ => false

/-- JS loose equality against `null` (`x == null`), true exactly for
`null` and `undefined`. -/
def jsLooseNull : JsValue → Bool
  | vUndef => true
  | vNull => true
  | _ => false

/-- JS truthiness. -/
def jsTruthy : JsValue → Bool
  | vUndef => false
  | vNull => false
  | vBool b => b
  | vNum n => n ≠ 0
  | vStr s => s ≠ ""
  | _ => true

/-- Decimal rendering of an integer, as JS `String(n)` for integers. -/
def intToJsString (i : Int) : String := toString i

/-- Multiplicity of `p` in `n` (fuel-bounded trial division). -/
def countFactorAux (p : Nat) : Nat → Nat → Nat
  | 0, _ => 0
  | _ + 1, 0 => 0
  | fuel + 1, n =>
    if p ≤ 1 then 0
    else if n % p = 0 then countFactorAux p fuel (n / p) + 1 else 0

def countFactor (p n : Nat) : Nat := countFactorAux p n n

/-- `String(x)` for a rational JS number.  Exact for integers; for a
non-integral value whose reduced denominator is of the form `2^a*5^b`
(every finite double's exact value has denominator `2^a`) this prints
the exact finite decimal expansion, matching the shortest-roundtrip
string JS prints for decimals a user wrote; other denominators cannot
arise from doubles and fall back to a fraction rendering. -/
def ratToJsString (q : Rat) : String :=
  if q.den = 1 then intToJsString q.num
  else
    let a := countFactor 2 q.den
    let b := countFactor 5 q.den
    let k := max a b
    if q.den = 2 ^ a * 5 ^ b then
      let scaled : Nat := q.num.natAbs * ((10 ^ k) / q.den)
      let ip : Nat := scaled / 10 ^ k
      let fracDigits : Nat := scaled % 10 ^ k
      let fracStr :=
        let s := Nat.toDigits 10 fracDigits
        let padded := List.replicate (k - s.length) '0' ++ s
        String.mk (padded.reverse.dropWhile (· = '0')).reverse
      (if q.num < 0 then "-" else "") ++ toString ip ++ "." ++ fracStr
    else intToJsString q.num ++ "/" ++ toString q.den

mutual

/-- `String(x)` / `ToString` for JS values.  Arrays join their elements
with "," (with `null`/`undefined` elements rendered empty, per
`Array.prototype.join`); plain objects give "[object Object]".  `Date`
stringification is locale/environment dependent in JS and is modelled
canonically; no theorem below depends on it. -/
def jsToString : JsValue → String
  | vUndef => "undefined"
  | vNull => "null"
  | vBool b => if b then "true" else "false"
  | vNum n => ratToJsString n
  | vStr s => s
  | vDate t => "Date(" ++ toString t ++ ")"
  | vArr xs => String.intercalate "," (jsToStringItems xs)
  | vObj _ => "[object Object]"

/-- Array join items: `null`/`undefined` become "", others `String(x)`. -/
def jsToStringItems : List JsValue → List String
  | [] => []
  | vUndef :: vs => "" :: jsToStringItems vs
  | vNull :: vs => "" :: jsToStringItems vs
  | v :: vs => jsToString v :: jsToStringItems vs

end
/-! ## String splitting (JS `string.split(sep)` for a one-char separator)

JS semantics: `"".split("/") = [""]`, `"/".split("/") = ["", ""]`,
empty segments are kept.  The result is always non-empty. -/

def splitCharList (sep : Char) : List Char → List (List Char)
  | [] => [[]]
  | c :: cs =>
    match splitCharList sep cs with
    | [] => [[]]
    | s :: rest => if c = sep then [] :: s :: rest else (c :: s) :: rest

/-- Embedding of `str.split(sep)` for a single-character separator. -/
def splitJs (sep : Char) (s : String) : List String :=
  (splitCharList sep s.data).map String.mk

theorem splitCharList_ne_nil (sep : Char) (l : List Char) :
    splitCharList sep l ≠ [] := by
  cases l with
  | nil => simp [splitCharList]
  | cons c cs =>
    simp only [splitCharList]
    cases h : splitCharList sep cs with
    | nil => simp
    | cons s rest =>
      by_cases hc : c = sep <;> simp [hc]

theorem splitJs_ne_nil (sep : Char) (s : String) : splitJs sep s ≠ [] := by
  simp [splitJs, splitCharList_ne_nil]

/-! ## Path and validation utilities (src/utils, part_000) -/

/-- `path.startsWith("/")`. -/
def startsWithSlash (s : String) : Bool := s.data.head? = some '/'

/-- `path.endsWith("/")`. -/
def endsWithSlash (s : String) : Bool := s.data.getLast? = some '/'

/-- Source: `validatePath` (part_000, lines 187-209).  Throws
`InvalidArgument` for an empty path, a leading or trailing slash, or an
empty segment.  (The `typeof path !== "string"` arm is unrepresentable
here since the model types the argument as a string.) -/
def validatePath (path : String) : Except BasebaseError Unit :=
  if path = "" then
    .error ⟨INVALID_ARGUMENT, "Path must be a non-empty string"⟩
  else if startsWithSlash path || endsWithSlash path then
    .error ⟨INVALID_ARGUMENT, "Path cannot start or end with a slash"⟩
  else if (splitJs '/' path).any (fun segment => segment = "") then
    .error ⟨INVALID_ARGUMENT, "Path cannot contain empty segments"⟩
  else
    .ok ()

/-- Source: `isAbsolutePath` (part_000, lines 278-283): a path with 3+
`/`-separated segments is treated as absolute. -/
def isAbsolutePath (path : String) : Bool :=
  3 ≤ (splitJs '/' path).length

/-- Source: `resolvePath` (part_000, lines 288-298): validate (an
exception propagates), then use the path as-is if absolute, else
prepend the default project id. -/
def resolvePath (defaultProjectId : String) (path : String) :
    Except BasebaseError String :=
  match validatePath path with
  | .error e => .error e
  | .ok _ =>
    if isAbsolutePath path then .ok path
    else .ok (defaultProjectId ++ "/" ++ path)

/-- Number of `/`-separated segments of a raw path. -/
def numSegments (p : String) : Nat := (splitJs '/' p).length

/-- Validity of a raw path in the words of the claim: a non-empty
string with no leading or trailing slash and no empty segment. -/
def validRawPath (p : String) : Bool :=
  p ≠ "" && !startsWithSlash p && !endsWithSlash p &&
    !(splitJs '/' p).any (fun segment => segment = "")

/-- C1: for every default project id `P` and valid raw path `p`
(non-empty, no leading/trailing slash, no empty segment),
`resolvePath P p` returns `p` unchanged when `p` has 3 or more
segments, and returns exactly `P ++ "/" ++ p` when it has fewer; for an
invalid `p` it fails with `InvalidArgument` before anything else. -/
theorem resolvePath_spec (P p : String) :
    (validRawPath p = true →
      resolvePath P p =
        .ok (if 3 ≤ numSegments p then p else P ++ "/" ++ p)) ∧
    (validRawPath p = false →
      ∃ msg, resolvePath P p = .error ⟨INVALID_ARGUMENT, msg⟩) := by
  constructor
  · intro hv
    simp only [validRawPath, Bool.and_eq_true, Bool.not_eq_true',
      decide_eq_true_eq, ne_eq] at hv
    obtain ⟨⟨⟨hne, hs⟩, he⟩, hseg⟩ := hv
    simp only [resolvePath, validatePath, hne, hs, he, hseg,
      isAbsolutePath, numSegments]
    split
    · simp_all
    · split
      · simp_all
      · next h => rw [if_neg (by simpa using h)]
  · intro hv
    simp only [validRawPath, Bool.and_eq_false_iff, Bool.not_eq_false',
      decide_eq_false_iff_not, ne_eq, Decidable.not_not] at hv
    by_cases hne : p = ""
    · exact ⟨"Path must be a non-empty string", by
        simp [resolvePath, validatePath, hne]⟩
    · by_cases hs : startsWithSlash p = true
      · exact ⟨"Path cannot start or end with a slash", by
          simp [resolvePath, validatePath, hne, hs]⟩
      · by_cases he : endsWithSlash p = true
        · exact ⟨"Path cannot start or end with a slash", by
            simp [resolvePath, validatePath, hne, he]⟩
        · refine ⟨"Path cannot contain empty segments", ?_⟩
          have hseg : (splitJs '/' p).any (fun segment => segment = "") = true := by
            rcases hv with ⟨⟨h | h⟩ | h⟩ | h
            · exact absurd h hne
            · exact absurd h hs
            · exact absurd h he
            · exact h
          have hseg' : "" ∈ splitJs '/' p := by
            simpa using hseg
          simp only [Bool.not_eq_true] at hs he
          simp [resolvePath, validatePath, hne, hs, he, hseg']

/-- Witness for C1 at concrete inputs: a 2-segment relative path gets
the project prepended, a 3-segment path passes through, and a path with
a leading slash is rejected with `InvalidArgument`. -/
theorem resolvePath_spec_witness :
    resolvePath "proj" "users/alice" = .ok "proj/users/alice" ∧
    resolvePath "proj" "other/users/alice" = .ok "other/users/alice" ∧
    ∃ msg, resolvePath "proj" "/users" = .error ⟨INVALID_ARGUMENT, msg⟩ := by
  refine ⟨?_, ?_, (resolvePath_spec "proj" "/users").2 (by decide)⟩
  · have h := (resolvePath_spec "proj" "users/alice").1 (by decide)
    simpa using h
  · have h := (resolvePath_spec "proj" "other/users/alice").1 (by decide)
    simpa using h

/-! ## Value codec (part_000, lines 23-55)

Since the MongoDB-compatibility rewrite the codec is the plain-JSON
passthrough dialect: both directions return their argument unchanged.
The spec (§4.2) explicitly admits this dialect. -/

/-- Source: `toBasebaseValue` (part_000, line 23): returns the value
as-is. -/
def toBasebaseValue (value : JsValue) : JsValue := value

/-- Source: `fromBasebaseValue` (part_000, line 31): returns the value
as-is. -/
def fromBasebaseValue (value : JsValue) : JsValue := value

/-- Source: `toBasebaseDocument` (part_000, line 39). -/
def toBasebaseDocument (data : JsDoc) : JsDoc := data

/-- Source: `fromBasebaseDocument` (part_000, line 50). -/
def fromBasebaseDocument (doc : JsDoc) : JsDoc := doc

/-- C7: the value codec round-trips: decoding the encoding of any
supported host value (strings, integers and floating-point numbers
(`vNum`), booleans, null, dates, ordered lists, string-keyed maps,
recursively nested) gives back the original value, and likewise for
whole documents.  Both directions are total functions by construction
(they are the identity of the passthrough wire dialect). -/
theorem codec_round_trip :
    (∀ v : JsValue, fromBasebaseValue (toBasebaseValue v) = v) ∧
    (∀ d : JsDoc, fromBasebaseDocument (toBasebaseDocument d) = d) :=
  ⟨fun _ => rfl, fun _ => rfl⟩

/-! ## Snapshots and the read layer (src/document.ts) -/

/-- `DocumentSnapshot` (src/document.ts, `DocumentSnapshotImpl`): the
stored payload `_data` and the existence flag.  The constructor's
`document || undefined` coercion is modelled by the `Option`. -/
structure DocSnapshot where
  dataF : Option JsDoc
  existsF : Bool

/-- `DocumentSnapshotImpl.data()`: a deep clone of `_data`, or
`undefined` when absent.  In this structural (tree) model a deep clone
is equal to the original; the heap model below (claim C10) accounts for
the freshness of the clone. -/
def DocSnapshot.dataFn (s : DocSnapshot) : Option JsDoc := s.dataF

/-- `QuerySnapshot` (src/document.ts, `QuerySnapshotImpl`): the
document list; `size`/`empty` are derived from it at construction. -/
structure QuerySnap where
  docs : List JsDoc

def QuerySnap.size (s : QuerySnap) : Nat := s.docs.length

def QuerySnap.empty (s : QuerySnap) : Bool := s.docs.length = 0

/-- Source: `DocumentReferenceImpl.get` (src/document.ts, lines
130-147).  The remote read outcome is the parameter; a `NOT_FOUND`
error is converted to a non-existent snapshot, any other error
propagates, and a successful response becomes an existing snapshot. -/
def docRefGet (remote : Except BasebaseError JsDoc) :
    Except BasebaseError DocSnapshot :=
  match remote with
  | .ok response => .ok ⟨some response, true⟩
  | .error e =>
    if e.code = NOT_FOUND then .ok ⟨none, false⟩ else .error e

/-- Source: `CollectionReferenceImpl.get` (src/document.ts, lines
298-326): list the collection; `NOT_FOUND` becomes an empty
`QuerySnapshot`, any other error propagates.  (The conversion of each
raw document into a `QueryDocumentSnapshot` keeps its data unchanged,
so the snapshot is modelled by its document list.) -/
def collectionGet (remote : Except BasebaseError (List JsDoc)) :
    Except BasebaseError QuerySnap :=
  match remote with
  | .ok documents => .ok ⟨documents⟩
  | .error e =>
    if e.code = NOT_FOUND then .ok ⟨[]⟩ else .error e

/-- C6: a remote `NotFound` on a document read yields a snapshot with
`exists = false` and `data()` undefined instead of an error; a remote
`NotFound` on a collection read yields an empty `QuerySnapshot`; every
remote error of any other kind propagates unchanged from both. -/
theorem get_not_found_conversion (e : BasebaseError) :
    (e.code = NOT_FOUND →
      docRefGet (.error e) = .ok ⟨none, false⟩ ∧
      (∀ s, docRefGet (.error e) = .ok s →
        s.existsF = false ∧ s.dataFn = none) ∧
      collectionGet (.error e) = .ok ⟨[]⟩ ∧
      (∀ q, collectionGet (.error e) = .ok q → q.empty = true)) ∧
    (e.code ≠ NOT_FOUND →
      docRefGet (.error e) = .error e ∧
      collectionGet (.error e) = .error e) := by
  constructor
  · intro h
    refine ⟨by simp [docRefGet, h], ?_, by simp [collectionGet, h], ?_⟩
    · intro s hs
      simp [docRefGet, h] at hs
      simp [← hs, DocSnapshot.dataFn]
    · intro q hq
      simp [collectionGet, h] at hq
      simp [← hq, QuerySnap.empty]
  · intro h
    exact ⟨by simp [docRefGet, h], by simp [collectionGet, h]⟩

/-- Witness for C6: a concrete `not-found` error is converted at both
read layers, and a concrete `unavailable` error propagates. -/
theorem get_not_found_conversion_witness :
    docRefGet (.error ⟨NOT_FOUND, "HTTP 404: Not Found"⟩) =
      .ok ⟨none, false⟩ ∧
    collectionGet (.error ⟨NOT_FOUND, "HTTP 404: Not Found"⟩) = .ok ⟨[]⟩ ∧
    docRefGet (.error ⟨UNAVAILABLE, "Request timeout"⟩) =
      .error ⟨UNAVAILABLE, "Request timeout"⟩ := by
  refine ⟨((get_not_found_conversion ⟨NOT_FOUND, "HTTP 404: Not Found"⟩).1
    rfl).1, ((get_not_found_conversion ⟨NOT_FOUND, "HTTP 404: Not Found"⟩).1
    rfl).2.2.1, ((get_not_found_conversion ⟨UNAVAILABLE, "Request timeout"⟩).2
    (by decide)).1⟩

/-! ## Merge-write policy of `DocumentReference.set` (src/document.ts,
lines 152-207) -/

/-- `SetOptions` (src/types.ts): `merge?: boolean`,
`mergeFields?: string[]`. -/
structure SetOptions where
  merge : Bool := false
  mergeFields : Option (List String) := none

/-- JS object spread `{...e, ...d}`, part 1: the keys of `e` in order,
with the value overridden by `d` where `d` has the key. -/
def overrideFields : JsDoc → JsDoc → JsDoc
  | [], _ => []
  | (k1, v1) :: rest, d => (k1, (findField k1 d).getD v1) :: overrideFields rest d

/-- JS object spread `{...e, ...d}`, part 2: the keys of `d` absent from
`e`, in `d`'s order. -/
def newFields (e : JsDoc) : JsDoc → JsDoc
  | [] => []
  | (k1, v1) :: rest =>
    if (findField k1 e).isSome then newFields e rest
    else (k1, v1) :: newFields e rest

/-- JS object spread `{...e, ...d}` on insertion-ordered objects: the
keys of `e` in order with values overridden by `d` where present, then
the keys of `d` absent from `e`, in `d`'s order. -/
def objSpread (e d : JsDoc) : JsDoc := overrideFields e d ++ newFields e d

/-- JS property assignment `o[k] = v`: update the existing property in
place (keeping its position) or append a new one. -/
def objAssign : JsDoc → String → JsValue → JsDoc
  | [], k, v => [(k, v)]
  | (k1, v1) :: rest, k, v =>
    if k1 = k then (k, v) :: rest else (k1, v1) :: objAssign rest k v

/-- The `mergeFields` loop of `set`: start from a copy of the existing
data, then for each listed field present in `data` assign `data`'s
value. -/
def mergeFieldsApply (existingData data : JsDoc) : List String → JsDoc
  | [] => existingData
  | f :: fs =>
    match findField f data with
    | some v => mergeFieldsApply (objAssign existingData f v) data fs
    | none => mergeFieldsApply existingData data fs

/-- Source: `DocumentReferenceImpl.set` (src/document.ts, lines
152-207), modelled as the computation of the written document
(`requestData`).  `remoteRead` is the outcome the preliminary
`this.get()`'s remote read would have; without merge options no read is
performed and `data` is written unchanged.  The inner `try/catch`
re-throws every error except `NOT_FOUND` (which `get` has already
converted into a non-existent snapshot, so the catch arm is defensive). -/
def setDoc (data : JsDoc) (options : Option SetOptions)
    (remoteRead : Except BasebaseError JsDoc) :
    Except BasebaseError JsDoc :=
  if (options.map fun o => o.merge || o.mergeFields.isSome).getD false then
    match docRefGet remoteRead with
    | .error e => if e.code = NOT_FOUND then .ok data else .error e
    | .ok existingDoc =>
      if existingDoc.existsF then
        match existingDoc.dataFn with
        | some existingData =>
          match options with
          | some o =>
            if o.merge then .ok (objSpread existingData data)
            else
              match o.mergeFields with
              | some fs => .ok (mergeFieldsApply existingData data fs)
              | none => .ok data
          | none => .ok data
        | none => .ok data
      else .ok data
  else .ok data

theorem findField_append (k : String) (a b : JsDoc) :
    findField k (a ++ b) =
      match findField k a with
      | some v => some v
      | none => findField k b := by
  induction a with
  | nil => simp [findField]
  | cons kv rest ih =>
    obtain ⟨k1, v1⟩ := kv
    by_cases hk : k1 = k
    · simp [findField, hk]
    · simp [findField, hk, ih]

theorem findField_objAssign (o : JsDoc) (k : String) (v : JsValue)
    (k' : String) :
    findField k' (objAssign o k v) =
      if k' = k then some v else findField k' o := by
  induction o with
  | nil =>
    by_cases h : k' = k
    · subst h
      simp [objAssign, findField]
    · have h2 : ¬k = k' := fun hh => h hh.symm
      simp [objAssign, findField, h, h2]
  | cons kv rest ih =>
    obtain ⟨k1, v1⟩ := kv
    by_cases h1 : k1 = k
    · subst h1
      by_cases h2 : k1 = k'
      · subst h2
        simp [objAssign, findField]
      · have h2s : ¬k' = k1 := fun hh => h2 hh.symm
        simp [objAssign, findField, h2, h2s]
    · by_cases h2 : k1 = k'
      · subst h2
        have h1s : ¬k1 = k := h1
        simp [objAssign, findField, h1, h1s]
      · simp [objAssign, findField, h1, h2, ih]

theorem findField_mergeFieldsApply (e d : JsDoc) (fs : List String)
    (k : String) :
    findField k (mergeFieldsApply e d fs) =
      if k ∈ fs ∧ (findField k d).isSome then findField k d
      else findField k e := by
  induction fs generalizing e with
  | nil => simp [mergeFieldsApply]
  | cons f fs ih =>
    rw [mergeFieldsApply]
    cases hd : findField f d with
    | none =>
      rw [ih]
      by_cases hk : k = f
      · subst hk
        simp [hd]
      · simp only [List.mem_cons]
        by_cases hmem : k ∈ fs <;> simp [hmem, hk]
    | some v =>
      rw [ih, findField_objAssign]
      by_cases hk : k = f
      · subst hk
        by_cases hmem : k ∈ fs
        · simp [hmem, hd]
        · simp [hmem, hd]
      · simp only [List.mem_cons, if_neg hk]
        by_cases hmem : k ∈ fs <;> simp [hmem, hk]

theorem findField_overrideFields (e d : JsDoc) (k : String) :
    findField k (overrideFields e d) =
      match findField k e with
      | some w => some ((findField k d).getD w)
      | none => none := by
  induction e with
  | nil => simp [overrideFields, findField]
  | cons kv rest ih =>
    obtain ⟨k1, v1⟩ := kv
    by_cases hk : k1 = k
    · subst hk
      simp [overrideFields, findField]
    · simp [overrideFields, findField, hk, ih]

theorem findField_newFields (e d : JsDoc) (k : String) :
    findField k (newFields e d) =
      if (findField k e).isNone then findField k d else none := by
  induction d with
  | nil => simp [newFields, findField]
  | cons kv rest ih =>
    obtain ⟨k1, v1⟩ := kv
    by_cases hk : k1 = k
    · subst hk
      cases he : findField k1 e with
      | none => simp [newFields, findField, he]
      | some w => simp [newFields, findField, he, ih]
    · cases he : findField k1 e with
      | none => simp [newFields, findField, he, hk, ih]
      | some w => simp [newFields, findField, he, hk, ih]

theorem findField_objSpread (e d : JsDoc) (k : String) :
    findField k (objSpread e d) =
      match findField k d with
      | some v => some v
      | none => findField k e := by
  unfold objSpread
  rw [findField_append, findField_overrideFields, findField_newFields]
  cases he : findField k e with
  | none =>
    simp only [Option.isNone_none, if_true]
    cases hd : findField k d <;> rfl
  | some w =>
    simp only [Option.isNone_some, Bool.false_eq_true, if_false]
    cases hd : findField k d <;> simp [hd]

/-- C2: the merge-write policy of `set(data, options)`.  When the
document exists with data `E`: `merge = true` writes the shallow merge
of `data` over `E` (each top-level field of `data` overrides, all other
fields of `E` are preserved) — `{a:1,b:2}` merged with `{b:3,c:4}`
gives `{a:1,b:3,c:4}`; `mergeFields = fs` writes `E` with exactly the
fields listed in `fs` and present in `data` taking `data`'s values —
`{a:1,b:2,c:3}` with `{a:9,b:9,c:9}` and `fs = ["a"]` gives
`{a:9,b:2,c:3}`; without options the written document equals `data`
exactly; a not-found on the preliminary read is tolerated, writing
`data` as-is. -/
theorem set_merge_policy :
    (∀ (E data : JsDoc),
      setDoc data (some ⟨true, none⟩) (.ok E) = .ok (objSpread E data) ∧
      ∀ k, findField k (objSpread E data) =
        match findField k data with
        | some v => some v
        | none => findField k E) ∧
    (setDoc [("b", vNum 3), ("c", vNum 4)] (some ⟨true, none⟩)
        (.ok [("a", vNum 1), ("b", vNum 2)]) =
      .ok [("a", vNum 1), ("b", vNum 3), ("c", vNum 4)]) ∧
    (∀ (E data : JsDoc) (fs : List String),
      setDoc data (some ⟨false, some fs⟩) (.ok E) =
        .ok (mergeFieldsApply E data fs) ∧
      ∀ k, findField k (mergeFieldsApply E data fs) =
        if k ∈ fs ∧ (findField k data).isSome then findField k data
        else findField k E) ∧
    (setDoc [("a", vNum 9), ("b", vNum 9), ("c", vNum 9)]
        (some ⟨false, some ["a"]⟩)
        (.ok [("a", vNum 1), ("b", vNum 2), ("c", vNum 3)]) =
      .ok [("a", vNum 9), ("b", vNum 2), ("c", vNum 3)]) ∧
    (∀ (data : JsDoc) (remoteRead : Except BasebaseError JsDoc),
      setDoc data none remoteRead = .ok data) ∧
    (∀ (data : JsDoc) (o : SetOptions) (msg : String),
      setDoc data (some o) (.error ⟨NOT_FOUND, msg⟩) = .ok data) := by
  refine ⟨?_, by rfl, ?_, by rfl, ?_, ?_⟩
  · intro E data
    exact ⟨rfl, findField_objSpread E data⟩
  · intro E data fs
    exact ⟨rfl, findField_mergeFieldsApply E data fs⟩
  · intro data remoteRead
    rfl
  · intro data o msg
    by_cases h : o.merge || o.mergeFields.isSome
    · simp [setDoc, h, docRefGet, NOT_FOUND]
    · simp [setDoc, h]

/-- Witness for C2's quantified parts at concrete inputs. -/
theorem set_merge_policy_witness :
    setDoc [("b", vNum 30)] (some ⟨true, none⟩) (.ok [("a", vNum 1)]) =
      .ok (objSpread [("a", vNum 1)] [("b", vNum 30)]) ∧
    setDoc [("x", vNum 7)] none (.error ⟨UNAVAILABLE, "down"⟩) =
      .ok [("x", vNum 7)] ∧
    setDoc [("x", vNum 7)] (some ⟨true, none⟩)
        (.error ⟨NOT_FOUND, "gone"⟩) = .ok [("x", vNum 7)] := by
  refine ⟨(set_merge_policy.1 [("a", vNum 1)] [("b", vNum 30)]).1,
    set_merge_policy.2.2.2.2.1 [("x", vNum 7)] (.error ⟨UNAVAILABLE, "down"⟩),
    set_merge_policy.2.2.2.2.2 [("x", vNum 7)] ⟨true, none⟩ "gone"⟩

/-! ## Query constraint model (part_001 / part_002)

The TypeScript `WhereFilterOp` and `OrderByDirection` are string-literal
union types; they are modelled as plain strings so that the
pass-through behaviour of unmapped operators is expressible. -/

inductive QueryConstraint where
  | whereC (fieldPath : String) (opStr : String) (value : JsValue)
  | orderByC (fieldPath : String) (directionStr : String)
  | limitC (n : Rat)

open QueryConstraint

/-- `Query` (part_001/part_002 `QueryImpl`): owning instance (modelled
by its name), collection path, ordered constraint list. -/
structure Query where
  basebase : String
  path : String
  constraints : List QueryConstraint

/-- Source: `QueryImpl.where` (part_001, lines 63-75): returns a new
query with the where constraint appended (`[...this.constraints, c]`).
(`where` is reserved in Lean, hence the `Q` suffix.) -/
def Query.whereQ (q : Query) (fieldPath opStr : String) (value : JsValue) :
    Query :=
  ⟨q.basebase, q.path, q.constraints ++ [whereC fieldPath opStr value]⟩

/-- Source: `QueryImpl.orderBy` (part_001, lines 80-91). -/
def Query.orderByQ (q : Query) (fieldPath : String)
    (directionStr : String := "asc") : Query :=
  ⟨q.basebase, q.path, q.constraints ++ [orderByC fieldPath directionStr]⟩

/-- Source: `QueryImpl.limit` (part_001, lines 96-113): throws
`InvalidArgument` when `limit <= 0`, otherwise appends the constraint.
Note there is no integrality check here, unlike the standalone `limit`
factory. -/
def Query.limitQ (q : Query) (limit : Rat) : Except BasebaseError Query :=
  if limit ≤ 0 then
    .error ⟨INVALID_ARGUMENT, "Limit must be positive"⟩
  else
    .ok ⟨q.basebase, q.path, q.constraints ++ [limitC limit]⟩

/-- Source: the standalone `where` factory (part_001, lines 445-463):
rejects only an empty field path; the operator and value are stored
unvalidated. -/
def whereFactory (fieldPath opStr : String) (value : JsValue) :
    Except BasebaseError QueryConstraint :=
  if fieldPath = "" then
    .error ⟨INVALID_ARGUMENT, "Field path must be a non-empty string"⟩
  else
    .ok (whereC fieldPath opStr value)

/-- Source: the standalone `orderBy` factory (part_001, lines 468-491):
rejects an empty field path and a direction other than "asc"/"desc". -/
def orderByFactory (fieldPath : String)
    (directionStr : String := "asc") : Except BasebaseError QueryConstraint :=
  if fieldPath = "" then
    .error ⟨INVALID_ARGUMENT, "Field path must be a non-empty string"⟩
  else if directionStr ≠ "asc" ∧ directionStr ≠ "desc" then
    .error ⟨INVALID_ARGUMENT, "Direction must be asc or desc"⟩
  else
    .ok (orderByC fieldPath directionStr)

/-- `Number.isInteger` on the (NaN-free, finite) number model. -/
def isIntegerJs (n : Rat) : Bool := n.den = 1

/-- Source: the standalone `limit` factory (part_001, lines 496-508):
rejects a non-integer or non-positive count. -/
def limitFactory (limitValue : Rat) : Except BasebaseError QueryConstraint :=
  if ¬isIntegerJs limitValue ∨ limitValue ≤ 0 then
    .error ⟨INVALID_ARGUMENT, "Limit must be a positive integer"⟩
  else
    .ok (limitC limitValue)

/-- C5: each constraint-adding call returns a new `Query` whose
constraint list is the old list with exactly the one new constraint
appended at the end, with the same path and owning instance; the
original query value is untouched (the builders construct a fresh
`Query` from `[...this.constraints, c]`, so in this pure embedding the
argument is returned unchanged by construction), hence two holders of
the same query value never observe each other's constraint additions:
both derived queries extend the very same original list. -/
theorem query_builder_immutable (q : Query) (f op : String) (v : JsValue)
    (f' dir : String) (n : Rat) :
    ((q.whereQ f op v).constraints = q.constraints ++ [whereC f op v] ∧
      (q.whereQ f op v).path = q.path ∧
      (q.whereQ f op v).basebase = q.basebase) ∧
    ((q.orderByQ f' dir).constraints = q.constraints ++ [orderByC f' dir] ∧
      (q.orderByQ f' dir).path = q.path ∧
      (q.orderByQ f' dir).basebase = q.basebase) ∧
    (0 < n →
      q.limitQ n = .ok ⟨q.basebase, q.path, q.constraints ++ [limitC n]⟩) := by
  refine ⟨⟨rfl, rfl, rfl⟩, ⟨rfl, rfl, rfl⟩, ?_⟩
  intro hn
  simp [Query.limitQ, not_le.mpr hn]

/-- Witness for C5 at a concrete query. -/
theorem query_builder_immutable_witness :
    (Query.limitQ ⟨"app", "proj/users", []⟩ 5) =
      .ok ⟨"app", "proj/users", [limitC 5]⟩ ∧
    (Query.whereQ ⟨"app", "proj/users", []⟩ "age" ">" (vNum 21)).constraints =
      [whereC "age" ">" (vNum 21)] := by
  have h := query_builder_immutable ⟨"app", "proj/users", []⟩ "age" ">"
    (vNum 21) "name" "asc" 5
  exact ⟨h.2.2 (by norm_num), h.1.1⟩

/-- C9 counterexample: `Query.limit` accepts the non-integer count
`5/2` and appends it, instead of failing with `InvalidArgument` as the
claim states for every non-integer count. -/
theorem limit_validation_counterexample :
    Query.limitQ ⟨"app", "proj/users", []⟩ (mkRat 5 2) =
      .ok ⟨"app", "proj/users", [limitC (mkRat 5 2)]⟩ ∧
    ¬isIntegerJs (mkRat 5 2) = true := by
  constructor
  · simp [Query.limitQ]
    decide
  · decide

/-- C9 (amended): the standalone `limit(n)` factory fails with
`InvalidArgument` for every `n ≤ 0` and every non-integer `n`; the
`Query.limit(n)` builder method fails with `InvalidArgument` for every
`n ≤ 0` but accepts every positive non-integer `n`, appending the
constraint. -/
theorem limit_validation (q : Query) (n : Rat) :
    (¬isIntegerJs n = true ∨ n ≤ 0 →
      limitFactory n = .error ⟨INVALID_ARGUMENT,
        "Limit must be a positive integer"⟩) ∧
    (isIntegerJs n = true → 0 < n → limitFactory n = .ok (limitC n)) ∧
    (n ≤ 0 →
      q.limitQ n = .error ⟨INVALID_ARGUMENT, "Limit must be positive"⟩) ∧
    (0 < n →
      q.limitQ n = .ok ⟨q.basebase, q.path, q.constraints ++ [limitC n]⟩) := by
  refine ⟨?_, ?_, ?_, ?_⟩
  · intro h
    rcases h with h | h <;> simp [limitFactory, h]
  · intro h1 h2
    simp [limitFactory, h1, not_le.mpr h2]
  · intro h
    simp [Query.limitQ, h]
  · intro h
    simp [Query.limitQ, not_le.mpr h]

/-- Witness for C9 (amended) at concrete counts. -/
theorem limit_validation_witness :
    limitFactory (mkRat 5 2) = .error ⟨INVALID_ARGUMENT,
      "Limit must be a positive integer"⟩ ∧
    limitFactory (-1) = .error ⟨INVALID_ARGUMENT,
      "Limit must be a positive integer"⟩ ∧
    limitFactory 3 = .ok (limitC 3) ∧
    Query.limitQ ⟨"app", "p/users", []⟩ 0 =
      .error ⟨INVALID_ARGUMENT, "Limit must be positive"⟩ ∧
    Query.limitQ ⟨"app", "p/users", []⟩ 4 =
      .ok ⟨"app", "p/users", [limitC 4]⟩ := by
  refine ⟨(limit_validation ⟨"app", "p/users", []⟩ (mkRat 5 2)).1 (Or.inl (by decide)),
    (limit_validation ⟨"app", "p/users", []⟩ (-1)).1 (Or.inr (by norm_num)),
    (limit_validation ⟨"app", "p/users", []⟩ 3).2.1 (by decide) (by norm_num),
    (limit_validation ⟨"app", "p/users", []⟩ 0).2.2.1 (by norm_num),
    (limit_validation ⟨"app", "p/users", []⟩ 4).2.2.2 (by norm_num)⟩

/-! ## JS numeric coercion (for the relational where-operators)

`ToNumber` as used by the abstract relational comparison `<`.  `none`
stands for `NaN`.  The string grammar covers optional sign and decimal
literals (the forms produced by ordinary data); exponent and hex forms
are omitted — no theorem depends on them. -/

def parseNatDigits : List Char → Option Nat
  | [] => none
  | cs =>
    if cs.all Char.isDigit then
      some (cs.foldl (fun acc c => acc * 10 + (c.toNat - 48)) 0)
    else none

/-- JS `ToNumber` on a trimmed, unsigned numeric literal body:
`ip.fp` denotes `(ip*10^len(fp) + fp) / 10^len(fp)`. -/
def parseUnsignedRat (cs : List Char) : Option Rat :=
  match splitCharList '.' cs with
  | [a] => (parseNatDigits a).map fun n => mkRat n 1
  | [a, b] =>
    if a = [] ∧ b = [] then none
    else
      match (if a = [] then some 0 else parseNatDigits a),
          (if b = [] then some 0 else parseNatDigits b) with
      | some ip, some fp => some (mkRat (ip * 10 ^ b.length + fp) (10 ^ b.length))
      | _, _ => none
  | _ => none

/-- JS `ToNumber` of a string: trim, empty ↦ 0, optional sign, decimal
literal; everything else is `NaN` (`none`). -/
def stringToNumberJs (s : String) : Option Rat :=
  let cs := (s.data.dropWhile (· = ' ')).reverse.dropWhile (· = ' ') |>.reverse
  match cs with
  | [] => some 0
  | '+' :: rest => parseUnsignedRat rest
  | '-' :: rest => (parseUnsignedRat rest).map Neg.neg
  | _ => parseUnsignedRat cs

/-- JS `ToNumber` of a value (`none` = `NaN`): `undefined ↦ NaN`,
`null ↦ 0`, booleans ↦ 0/1, dates ↦ epoch milliseconds, arrays via
their join-string, plain objects ↦ `NaN` ("[object Object]"). -/
def jsToNumber : JsValue → Option Rat
  | vUndef => none
  | vNull => some 0
  | vBool b => some (if b then 1 else 0)
  | vNum n => some n
  | vStr s => stringToNumberJs s
  | vDate t => some (t : Rat)
  | vArr xs => stringToNumberJs (jsToString (vArr xs))
  | vObj _ => none

/-- Lexicographic comparison of character lists by code point (JS
compares strings by UTF-16 code unit; they agree up to the BMP). -/
def charListCompare : List Char → List Char → Int
  | [], [] => 0
  | [], _ :: _ => -1
  | _ :: _, [] => 1
  | a :: as, b :: bs =>
    if a.toNat < b.toNat then -1
    else if b.toNat < a.toNat then 1
    else charListCompare as bs

/-- JS `a < b` (abstract relational comparison): both strings compare
lexicographically by code unit, otherwise numerically with `NaN` making
the comparison false. -/
def jsLt (a b : JsValue) : Bool :=
  match a, b with
  | vStr x, vStr y => charListCompare x.data y.data < 0
  | _, _ =>
    match jsToNumber a, jsToNumber b with
    | some x, some y => x < y
    | _, _ => false

/-- JS `a <= b` (i.e. `!(b < a)`, false on `NaN`). -/
def jsLe (a b : JsValue) : Bool :=
  match a, b with
  | vStr x, vStr y => charListCompare x.data y.data ≤ 0
  | _, _ =>
    match jsToNumber a, jsToNumber b with
    | some x, some y => x ≤ y
    | _, _ => false

/-- `Array.prototype.includes` (SameValueZero membership; the model has
no `NaN`, so this is strict-equality membership). -/
def jsIncludes (xs : List JsValue) (v : JsValue) : Bool :=
  xs.any fun e => jsStrictEq e v

/-! ## Client-side query engine (part_002, `QueryImpl`) -/

/-- JS property read `v[k]` for data properties: object fields, array
elements by canonical index string and `length`; prototype-chain
properties (methods etc.) are not modelled. -/
def jsPropAccess (v : JsValue) (k : String) : JsValue :=
  match v with
  | vObj fs => (findField k fs).getD vUndef
  | vArr xs =>
    if k = "length" then vNum xs.length
    else
      match parseNatDigits k.data with
      | some i => xs.getD i vUndef
      | none => vUndef
  | vStr s => if k = "length" then vNum s.length else vUndef
  | _ => vUndef

/-- The segment loop of `QueryImpl.getFieldValue` (part_002, lines
235-247): `if (!current || current[segment] === undefined) return
undefined; current = current[segment]`.  Returning `undefined` early is
equivalent to folding `undefined` through the remaining segments, since
`undefined` is falsy and its property reads are `undefined`. -/
def getFieldValueSegs : JsValue → List String → JsValue
  | current, [] => current
  | current, seg :: rest =>
    if jsTruthy current then getFieldValueSegs (jsPropAccess current seg) rest
    else vUndef

/-- Source: `QueryImpl.getFieldValue` (part_002, lines 235-247): dotted
field-path navigation. -/
def getFieldValue (doc : JsValue) (fieldPath : String) : JsValue :=
  getFieldValueSegs doc (splitJs '.' fieldPath)

/-- Source: `QueryImpl.evaluateWhereCondition` (part_002, lines
252-288).  `none` models the thrown `InvalidArgument` ("Unsupported
operator") of the default arm.  The `in` arm is verbatim identical in
part_001's query module (lines 326-375). -/
def evaluateWhereCondition (fieldValue : JsValue) (operator : String)
    (queryValue : JsValue) : Option Bool :=
  match operator with
  | "==" => some (jsStrictEq fieldValue queryValue)
  | "!=" => some (!jsStrictEq fieldValue queryValue)
  | "<" => some (jsLt fieldValue queryValue)
  | "<=" => some (jsLe fieldValue queryValue)
  | ">" => some (jsLt queryValue fieldValue)
  | ">=" => some (jsLe queryValue fieldValue)
  | "array-contains" =>
    some (match fieldValue with
      | vArr xs => jsIncludes xs queryValue
      | _ => false)
  | "in" =>
    some (match queryValue with
      | vArr vs => jsIncludes vs fieldValue
      | _ => false)
  | "not-in" =>
    some (match queryValue with
      | vArr vs => !jsIncludes vs fieldValue
      | _ => false)
  | "array-contains-any" =>
    some (match fieldValue, queryValue with
      | vArr xs, vArr vs => vs.any fun val => jsIncludes xs val
      | _, _ => false)
  | _ => none

/-- `String.prototype.localeCompare` modelled as code-point
lexicographic comparison (they agree on the ASCII data of the claims;
the real thing is locale dependent). -/
def strCompare (s t : String) : Rat :=
  mkRat (charListCompare s.data t.data) 1

/-- Rational subtraction in an explicitly computable form (the library
subtraction is `irreducible`, which would block witness evaluation);
`ratSub_eq_sub` below proves it is subtraction. -/
def ratSub (x y : Rat) : Rat :=
  mkRat (x.num * y.den - y.num * x.den) (x.den * y.den)

theorem ratSub_eq_sub (x y : Rat) : ratSub x y = x - y := by
  have hx : (x.den : Rat) ≠ 0 := by
    exact_mod_cast x.den_nz
  have hy : (y.den : Rat) ≠ 0 := by
    exact_mod_cast y.den_nz
  rw [ratSub, Rat.mkRat_eq_div]
  conv_rhs => rw [← Rat.num_div_den x, ← Rat.num_div_den y]
  rw [div_sub_div _ _ hx hy]
  push_cast
  ring_nf

/-- Source: `QueryImpl.compareValues` (part_002, lines 293-312):
`a === b ↦ 0`; null/undefined sort before anything; numbers by
difference (`a - b`); strings and the cross-type fallback by
`localeCompare`; booleans false < true. -/
def compareValues (a b : JsValue) : Rat :=
  if jsStrictEq a b then 0
  else if jsLooseNull a then -1
  else if jsLooseNull b then 1
  else
    match a, b with
    | vNum x, vNum y => ratSub x y
    | vStr x, vStr y => strCompare x y
    | vBool x, vBool y => if x = y then 0 else if x then 1 else -1
    | _, _ => strCompare (jsToString a) (jsToString b)

/-- The multi-key comparator of `QueryImpl.applyOrderByConstraints`
(part_002, lines 214-230): keys in declaration order, the next key
consulted only when the current comparison is 0, `desc` negating.
Non-orderBy constraints never reach it (the caller filters). -/
def orderByCompare : List QueryConstraint → JsValue → JsValue → Rat
  | [], _, _ => 0
  | orderByC f dir :: rest, a, b =>
    let c := compareValues (getFieldValue a f) (getFieldValue b f)
    if c ≠ 0 then (if dir = "desc" then -c else c)
    else orderByCompare rest a b
  | _ :: rest, a, b => orderByCompare rest a b

/-- Stable insertion: `x` goes before the first element not strictly
preceding it. -/
def insertSorted (cmp : α → α → Rat) (x : α) : List α → List α
  | [] => [x]
  | y :: ys => if cmp x y ≤ 0 then x :: y :: ys else y :: insertSorted cmp x ys

/-- Model of `Array.prototype.sort(comparator)`: ES2019+ requires the
sort to be stable and sorted w.r.t. the comparator, which for a
consistent comparator determines the output uniquely; stable insertion
sort realizes it. -/
def sortJs (cmp : α → α → Rat) (l : List α) : List α :=
  l.foldr (insertSorted cmp) []

def isWhereC : QueryConstraint → Bool
  | whereC _ _ _ => true
  | _ => false

def isOrderByC : QueryConstraint → Bool
  | orderByC _ _ => true
  | _ => false

/-- `constraints.find(c => c.type === "limit")`. -/
def findLimit : List QueryConstraint → Option Rat
  | [] => none
  | limitC n :: _ => some n
  | _ :: rest => findLimit rest

/-- JS `ToIntegerOrInfinity` on a finite number: truncation toward 0. -/
def ratTruncJs (q : Rat) : Int := q.num.tdiv q.den

/-- `arr.slice(0, n)` for a finite numeric `n`: a negative `n` counts
from the end, otherwise truncate-and-clamp. -/
def jsSlice0 (n : Rat) (l : List α) : List α :=
  if n < 0 then l.take ((l.length : Int) + ratTruncJs n).toNat
  else l.take (ratTruncJs n).toNat

/-- `documents.filter(...)` for one where constraint: predicate
evaluated left to right, a thrown `InvalidArgument` aborts. -/
def filterEvalDocs (f op : String) (v : JsValue) :
    List JsValue → Option (List JsValue)
  | [] => some []
  | d :: ds =>
    match evaluateWhereCondition (getFieldValue d f) op v with
    | none => none
    | some b =>
      match filterEvalDocs f op v ds with
      | none => none
      | some rest => some (if b then d :: rest else rest)

/-- Source: `QueryImpl.applyWhereConstraint` (part_002, lines
197-209). -/
def applyWhereConstraint (documents : List JsValue) :
    QueryConstraint → Option (List JsValue)
  | whereC f op v => filterEvalDocs f op v documents
  | _ => some documents

/-- The sequential where loop of `applyClientSideConstraints`. -/
def applyWheres (documents : List JsValue) :
    List QueryConstraint → Option (List JsValue)
  | [] => some documents
  | c :: cs =>
    match applyWhereConstraint documents c with
    | none => none
    | some result => applyWheres result cs

/-- The limit step of `applyClientSideConstraints`:
`result.slice(0, limit)` for the first limit constraint, if any. -/
def applyLimitSlice (constraints : List QueryConstraint)
    (result : List JsValue) : List JsValue :=
  match findLimit constraints with
  | some n => jsSlice0 n result
  | none => result

/-- Source: `QueryImpl.applyClientSideConstraints` (part_002, lines
164-192): sequential where filters, then (when any orderBy is present)
one multi-key sort, then `slice(0, limit)` for the first limit
constraint. -/
def applyClientSideConstraints (constraints : List QueryConstraint)
    (documents : List JsValue) : Option (List JsValue) :=
  match applyWheres documents (constraints.filter isWhereC) with
  | none => none
  | some result =>
    some (applyLimitSlice constraints
      (if (constraints.filter isOrderByC).isEmpty then result
        else sortJs (orderByCompare (constraints.filter isOrderByC)) result))

/-- An array-valued JS value. -/
def isArrayJs : JsValue → Bool
  | vArr _ => true
  | _ => false

/-- C8 counterexample: `where("role", "in", "admin")` — a non-array
right-hand value — succeeds at construction instead of raising
`InvalidArgument` as the claim states; at evaluation it simply never
matches. -/
theorem where_in_counterexample :
    whereFactory "role" "in" (vStr "admin") =
      .ok (whereC "role" "in" (vStr "admin")) ∧
    evaluateWhereCondition (vStr "admin") "in" (vStr "admin") =
      some false := by
  exact ⟨rfl, rfl⟩

/-- C8 (amended): `where(field, "in", v)` with a non-array `v` is
accepted at construction (only an empty field path is rejected) and the
resulting constraint matches no document at evaluation (it never
raises); with an array `v` the constraint matches exactly the documents
whose field value is strictly equal (SameValueZero) to some element of
`v`, and excludes all others. -/
theorem where_in_semantics (f : String) (v fv : JsValue)
    (vs : List JsValue) (docs : List JsValue) :
    (f ≠ "" → whereFactory f "in" v = .ok (whereC f "in" v)) ∧
    (isArrayJs v = false →
      evaluateWhereCondition fv "in" v = some false) ∧
    (evaluateWhereCondition fv "in" (vArr vs) =
      some (vs.any fun e => jsStrictEq e fv)) ∧
    (filterEvalDocs f "in" (vArr vs) docs =
      some (docs.filter fun d => vs.any fun e =>
        jsStrictEq e (getFieldValue d f))) := by
  refine ⟨?_, ?_, rfl, ?_⟩
  · intro hf
    simp [whereFactory, hf]
  · intro hv
    cases v <;> simp_all [evaluateWhereCondition, isArrayJs, jsIncludes]
  · induction docs with
    | nil => rfl
    | cons d ds ih =>
      simp only [filterEvalDocs, evaluateWhereCondition, jsIncludes, ih,
        List.filter_cons]

/-- Witness for C8 (amended) at concrete inputs: a valid `in`
constraint over `["a","b"]` filters three documents down to the two
whose `role` is "a" or "b". -/
theorem where_in_semantics_witness :
    whereFactory "role" "in" (vArr [vStr "a", vStr "b"]) =
      .ok (whereC "role" "in" (vArr [vStr "a", vStr "b"])) ∧
    evaluateWhereCondition (vNum 7) "in" (vNum 7) = some false ∧
    filterEvalDocs "role" "in" (vArr [vStr "a", vStr "b"])
        [vObj [("role", vStr "a")], vObj [("role", vStr "c")],
          vObj [("role", vStr "b")]] =
      some [vObj [("role", vStr "a")], vObj [("role", vStr "b")]] := by
  refine ⟨(where_in_semantics "role" (vArr [vStr "a", vStr "b"]) vUndef []
    []).1 (by decide), (where_in_semantics "r" (vNum 7) (vNum 7) [] []).2.1
    rfl, ?_⟩
  have h := (where_in_semantics "role" vUndef (vStr "x")
    [vStr "a", vStr "b"]
    [vObj [("role", vStr "a")], vObj [("role", vStr "c")],
      vObj [("role", vStr "b")]]).2.2.2
  simpa using h

/-- The ten operators the client-side evaluator supports (part_002's
`evaluateWhereCondition` throws on anything else). -/
def supportedClientOp (op : String) : Bool :=
  op = "==" || op = "!=" || op = "<" || op = "<=" || op = ">" || op = ">=" ||
    op = "array-contains" || op = "in" || op = "not-in" ||
    op = "array-contains-any"

theorem evaluateWhereCondition_isSome (fv qv : JsValue) (op : String)
    (h : supportedClientOp op = true) :
    (evaluateWhereCondition fv op qv).isSome = true := by
  simp only [supportedClientOp, Bool.or_eq_true, decide_eq_true_eq] at h
  rcases h with (((((((((h | h) | h) | h) | h) | h) | h) | h) | h) | h) <;>
    subst h <;> rfl

/-- One where constraint suffices for one document. -/
def whereHolds (d : JsValue) : QueryConstraint → Bool
  | whereC f op v => (evaluateWhereCondition (getFieldValue d f) op v).getD false
  | _ => true

/-- Every where operator of the constraint list is client-supported. -/
def whereOpsSupported (cs : List QueryConstraint) : Bool :=
  (cs.filter isWhereC).all fun c =>
    match c with
    | whereC _ op _ => supportedClientOp op
    | _ => true

theorem filterEvalDocs_eq_filter (f op : String) (v : JsValue)
    (docs : List JsValue) (h : supportedClientOp op = true) :
    filterEvalDocs f op v docs =
      some (docs.filter fun d =>
        (evaluateWhereCondition (getFieldValue d f) op v).getD false) := by
  induction docs with
  | nil => rfl
  | cons d ds ih =>
    rw [filterEvalDocs]
    obtain ⟨b, hb⟩ := Option.isSome_iff_exists.mp
      (evaluateWhereCondition_isSome (getFieldValue d f) v op h)
    rw [hb, ih, List.filter_cons]
    simp [hb]

theorem filter_filter_and (p q : JsValue → Bool) (docs : List JsValue) :
    (docs.filter p).filter q = docs.filter fun d => p d && q d := by
  induction docs with
  | nil => rfl
  | cons d ds ih =>
    by_cases hp : p d <;> by_cases hq : q d <;>
      simp [List.filter_cons, hp, hq, ih]

theorem applyWheres_eq_filter (ws : List QueryConstraint)
    (docs : List JsValue)
    (hw : ∀ c ∈ ws, isWhereC c = true)
    (hops : ∀ c ∈ ws, (match c with
      | whereC _ op _ => supportedClientOp op
      | _ => true) = true) :
    applyWheres docs ws = some (docs.filter fun d => ws.all (whereHolds d)) := by
  induction ws generalizing docs with
  | nil => simp [applyWheres]
  | cons c cs ih =>
    cases c with
    | whereC f op v =>
      have hop : supportedClientOp op = true := by
        simpa using hops (whereC f op v) (List.mem_cons_self _ _)
      have hw' : ∀ c ∈ cs, isWhereC c = true :=
        fun c hc => hw c (List.mem_cons_of_mem _ hc)
      have hops' : ∀ c ∈ cs, (match c with
          | whereC _ op _ => supportedClientOp op
          | _ => true) = true :=
        fun c hc => hops c (List.mem_cons_of_mem _ hc)
      have hfil := filterEvalDocs_eq_filter f op v docs hop
      simp only [applyWheres, applyWhereConstraint, hfil]
      rw [ih _ hw' hops', filter_filter_and]
      simp only [List.all_cons, whereHolds]
    | orderByC f dir =>
      exact absurd (hw (orderByC f dir) (List.mem_cons_self _ _))
        (by simp [isWhereC])
    | limitC n =>
      exact absurd (hw (limitC n) (List.mem_cons_self _ _))
        (by simp [isWhereC])

theorem insertSorted_of_nonpos (cmp : α → α → Rat) (x : α) (l : List α)
    (h : ∀ y, cmp x y ≤ 0) : insertSorted cmp x l = x :: l := by
  cases l with
  | nil => rfl
  | cons y ys => simp [insertSorted, h y]

theorem sortJs_id_of_cmp_zero (cmp : α → α → Rat)
    (h : ∀ x y, cmp x y = 0) (l : List α) : sortJs cmp l = l := by
  induction l with
  | nil => rfl
  | cons x xs ih =>
    show insertSorted cmp x (sortJs cmp xs) = x :: xs
    rw [ih, insertSorted_of_nonpos cmp x xs (fun y => le_of_eq (h x y))]

/-- Truncation to the limit count, in the words of the claim. -/
def applyLimitTake (cs : List QueryConstraint) (r : List JsValue) :
    List JsValue :=
  match findLimit cs with
  | some n => r.take (ratTruncJs n).toNat
  | none => r

/-- The client-side pipeline in the words of the claim: keep exactly
the documents satisfying every where constraint (logical AND), sort
once with the multi-key comparator, truncate to the limit count. -/
def clientQuerySpec (cs : List QueryConstraint) (docs : List JsValue) :
    List JsValue :=
  applyLimitTake cs
    (sortJs (orderByCompare (cs.filter isOrderByC))
      (docs.filter fun d => (cs.filter isWhereC).all (whereHolds d)))

/-- For a positive limit count, `slice(0, n)` is `take ⌊n⌋`. -/
theorem applyLimitSlice_eq_take (cs : List QueryConstraint)
    (r : List JsValue) (hpos : ∀ n, findLimit cs = some n → 0 < n) :
    applyLimitSlice cs r = applyLimitTake cs r := by
  unfold applyLimitSlice applyLimitTake
  cases hfl : findLimit cs with
  | none => rfl
  | some n =>
    simp only [jsSlice0, if_neg (not_lt.mpr (le_of_lt (hpos n hfl)))]

/-- C3: given the fetched document list, the client-side result equals
the documents satisfying every where constraint (logical AND of the
sequential filters), sorted by the one stable multi-key comparator
(keys in declaration order, next key only on ties, `desc` negating),
truncated to the limit count; the claim's two concrete examples: the
three documents ordered by `n` then `v` come out `a/1, a/2, b/2`, and
`limit 2` on a 5-result query returns exactly the first 2 in order. -/
theorem client_side_constraints (cs : List QueryConstraint)
    (docs : List JsValue)
    (hops : whereOpsSupported cs = true)
    (hpos : ∀ n, findLimit cs = some n → 0 < n) :
    applyClientSideConstraints cs docs = some (clientQuerySpec cs docs) ∧
    applyClientSideConstraints [orderByC "n" "asc", orderByC "v" "asc"]
        [vObj [("n", vStr "b"), ("v", vNum 2)],
          vObj [("n", vStr "a"), ("v", vNum 1)],
          vObj [("n", vStr "a"), ("v", vNum 2)]] =
      some [vObj [("n", vStr "a"), ("v", vNum 1)],
        vObj [("n", vStr "a"), ("v", vNum 2)],
        vObj [("n", vStr "b"), ("v", vNum 2)]] ∧
    applyClientSideConstraints [orderByC "v" "asc", limitC 2]
        [vObj [("v", vNum 5)], vObj [("v", vNum 4)], vObj [("v", vNum 3)],
          vObj [("v", vNum 2)], vObj [("v", vNum 1)]] =
      some [vObj [("v", vNum 1)], vObj [("v", vNum 2)]] := by
  refine ⟨?_, by rfl, by rfl⟩
  have hW := applyWheres_eq_filter (cs.filter isWhereC) docs
    (fun c hc => List.of_mem_filter hc)
    (fun c hc => by
      have := List.all_eq_true.mp hops c hc
      simpa using this)
  simp only [applyClientSideConstraints, hW]
  rw [applyLimitSlice_eq_take cs _ hpos, clientQuerySpec]
  by_cases hobs : (cs.filter isOrderByC).isEmpty
  · rw [if_pos hobs, List.isEmpty_iff.mp hobs,
      sortJs_id_of_cmp_zero (orderByCompare []) (fun x y => rfl)]
  · rw [if_neg hobs]

/-- Witness for C3 at a concrete query: one where, one orderBy and one
limit constraint over four documents. -/
theorem client_side_constraints_witness :
    applyClientSideConstraints
        [whereC "v" ">" (vNum 1), orderByC "v" "desc", limitC 2]
        [vObj [("v", vNum 2)], vObj [("v", vNum 1)], vObj [("v", vNum 4)],
          vObj [("v", vNum 3)]] =
      some (clientQuerySpec
        [whereC "v" ">" (vNum 1), orderByC "v" "desc", limitC 2]
        [vObj [("v", vNum 2)], vObj [("v", vNum 1)], vObj [("v", vNum 4)],
          vObj [("v", vNum 3)]]) ∧
    clientQuerySpec
        [whereC "v" ">" (vNum 1), orderByC "v" "desc", limitC 2]
        [vObj [("v", vNum 2)], vObj [("v", vNum 1)], vObj [("v", vNum 4)],
          vObj [("v", vNum 3)]] =
      [vObj [("v", vNum 4)], vObj [("v", vNum 3)]] := by
  constructor
  · exact (client_side_constraints
      [whereC "v" ">" (vNum 1), orderByC "v" "desc", limitC 2]
      [vObj [("v", vNum 2)], vObj [("v", vNum 1)], vObj [("v", vNum 4)],
        vObj [("v", vNum 3)]] (by rfl)
      (fun n hn => by
        simp [findLimit] at hn
        rw [← hn]
        norm_num)).1
  · rfl

/-! ## Structured-query compilation (part_001, lines 579-689)

Wire structures for the `runQuery` endpoint (src/types.ts,
`StructuredQuery*`).  `from`/`where` are reserved words in Lean, hence
`fromClause`/`whereClause`. -/

structure SQFieldRef where
  fieldPath : String

structure SQFrom where
  collectionId : String
  allDescendants : Bool

structure SQFieldFilter where
  field : SQFieldRef
  op : String
  value : JsValue

inductive SQFilter where
  | fieldFilter (f : SQFieldFilter)
  | compositeFilter (op : String) (filters : List SQFilter)

structure SQOrder where
  field : SQFieldRef
  direction : String

structure StructuredQuery where
  fromClause : List SQFrom
  whereClause : Option SQFilter
  orderBy : Option (List SQOrder)
  limit : Option Rat

/-- Source: `mapOperatorToFirestore` (part_001, lines 579-595):
`operatorMap[op] || op` — the fixed 11-entry table, falling through to
the operator itself when unmapped (every mapped name is a non-empty,
hence truthy, string). -/
def mapOperatorToFirestore (op : String) : String :=
  match op with
  | "==" => "EQUAL"
  | "!=" => "NOT_EQUAL"
  | "<" => "LESS_THAN"
  | "<=" => "LESS_THAN_OR_EQUAL"
  | ">" => "GREATER_THAN"
  | ">=" => "GREATER_THAN_OR_EQUAL"
  | "array-contains" => "ARRAY_CONTAINS"
  | "in" => "IN"
  | "not-in" => "NOT_IN"
  | "array-contains-any" => "ARRAY_CONTAINS_ANY"
  | "matches" => "MATCHES"
  | _ => op

/-- Source: `buildFieldFilter` (part_001, lines 667-677).  Only where
constraints reach it (the TS signature takes a `WhereConstraint`); the
other arms are unreachable placeholders. -/
def buildFieldFilter : QueryConstraint → SQFieldFilter
  | whereC f op v => ⟨⟨f⟩, mapOperatorToFirestore op, toBasebaseValue v⟩
  | orderByC f _ => ⟨⟨f⟩, "", vNull⟩
  | limitC _ => ⟨⟨""⟩, "", vNull⟩

/-- Source: `buildOrderBy` (part_001, lines 682-689):
`directionStr === "desc" ? "DESCENDING" : "ASCENDING"`. -/
def buildOrderBy : QueryConstraint → SQOrder
  | orderByC f dir => ⟨⟨f⟩, if dir = "desc" then "DESCENDING" else "ASCENDING"⟩
  | whereC f _ _ => ⟨⟨f⟩, "ASCENDING"⟩
  | limitC _ => ⟨⟨""⟩, "ASCENDING"⟩

/-- `collectionPath.split("/").pop() || collectionPath` (part_001,
line 607). -/
def lastSegmentJs (path : String) : String :=
  match (splitJs '/' path).getLast? with
  | some seg => if seg = "" then path else seg
  | none => path

/-- The where clause of `buildStructuredQuery` (part_001, lines
613-641): absent without where constraints, a single field filter for
one, a flat `AND` composite of field filters for several (the
`!= null` filter in the source is the identity here). -/
def whereClauseOf : List QueryConstraint → Option SQFilter
  | [] => none
  | [w] => some (SQFilter.fieldFilter (buildFieldFilter w))
  | ws =>
    some (SQFilter.compositeFilter "AND"
      (ws.map fun w => SQFilter.fieldFilter (buildFieldFilter w)))

/-- The orderBy clause of `buildStructuredQuery` (part_001, lines
643-650): only set when orderBy constraints exist, mapped one-to-one in
declaration order. -/
def orderByClauseOf (obs : List QueryConstraint) : Option (List SQOrder) :=
  if obs.isEmpty then none else some (obs.map buildOrderBy)

/-- Source: `buildStructuredQuery` (part_001, lines 600-662).  The
source builds the record imperatively, setting each field at most once;
this is that computation field by field: the `from` clause from the
last path segment, the where clause from the where constraints, the
orderBy list from the orderBy constraints, the limit from the first
limit constraint (`constraints.find`). -/
def buildStructuredQuery (collectionPath : String)
    (constraints : List QueryConstraint) : StructuredQuery where
  fromClause := [⟨lastSegmentJs collectionPath, false⟩]
  whereClause := whereClauseOf (constraints.filter isWhereC)
  orderBy := orderByClauseOf (constraints.filter isOrderByC)
  limit := findLimit constraints

/-- The 11 mapped operator names. -/
def mappedOps : List String :=
  ["==", "!=", "<", "<=", ">", ">=", "array-contains", "in", "not-in",
    "array-contains-any", "matches"]

/-- C4: shape of the compiled structured query, for every constraint
list: one `from` clause naming the last segment of the collection path;
no where clause without where constraints, a single field filter for
exactly one, a flat `AND` composite with one field filter per where
constraint for several (no disjunction, no nesting); the orderBy list
mapped 1:1 in declaration order with `asc ↦ ASCENDING`,
`desc ↦ DESCENDING`; the optional limit taken from the (first) limit
constraint; operators translated by the fixed table (`== ↦ EQUAL`,
`array-contains ↦ ARRAY_CONTAINS`, …) with unmapped operators passed
through verbatim. -/
theorem structured_query_shape (path : String) (cs : List QueryConstraint) :
    ((buildStructuredQuery path cs).fromClause =
      [⟨lastSegmentJs path, false⟩] ∧
      ∀ seg, (splitJs '/' path).getLast? = some seg → seg ≠ "" →
        lastSegmentJs path = seg) ∧
    (cs.filter isWhereC = [] →
      (buildStructuredQuery path cs).whereClause = none) ∧
    (∀ w, cs.filter isWhereC = [w] →
      (buildStructuredQuery path cs).whereClause =
        some (SQFilter.fieldFilter (buildFieldFilter w))) ∧
    (2 ≤ (cs.filter isWhereC).length →
      (buildStructuredQuery path cs).whereClause =
        some (SQFilter.compositeFilter "AND"
          ((cs.filter isWhereC).map fun w =>
            SQFilter.fieldFilter (buildFieldFilter w)))) ∧
    (∀ f op v, buildFieldFilter (whereC f op v) =
      ⟨⟨f⟩, mapOperatorToFirestore op, toBasebaseValue v⟩) ∧
    (cs.filter isOrderByC = [] →
      (buildStructuredQuery path cs).orderBy = none) ∧
    (cs.filter isOrderByC ≠ [] →
      (buildStructuredQuery path cs).orderBy =
        some ((cs.filter isOrderByC).map buildOrderBy)) ∧
    (∀ f, buildOrderBy (orderByC f "asc") = ⟨⟨f⟩, "ASCENDING"⟩ ∧
      buildOrderBy (orderByC f "desc") = ⟨⟨f⟩, "DESCENDING"⟩) ∧
    ((buildStructuredQuery path cs).limit = findLimit cs) ∧
    (mapOperatorToFirestore "==" = "EQUAL" ∧
      mapOperatorToFirestore "!=" = "NOT_EQUAL" ∧
      mapOperatorToFirestore "<" = "LESS_THAN" ∧
      mapOperatorToFirestore "<=" = "LESS_THAN_OR_EQUAL" ∧
      mapOperatorToFirestore ">" = "GREATER_THAN" ∧
      mapOperatorToFirestore ">=" = "GREATER_THAN_OR_EQUAL" ∧
      mapOperatorToFirestore "array-contains" = "ARRAY_CONTAINS" ∧
      mapOperatorToFirestore "in" = "IN" ∧
      mapOperatorToFirestore "not-in" = "NOT_IN" ∧
      mapOperatorToFirestore "array-contains-any" = "ARRAY_CONTAINS_ANY" ∧
      mapOperatorToFirestore "matches" = "MATCHES") ∧
    (∀ op, op ∉ mappedOps → mapOperatorToFirestore op = op) := by
  refine ⟨⟨rfl, ?_⟩, ?_, ?_, ?_, fun f op v => rfl, ?_, ?_,
    fun f => ⟨rfl, rfl⟩, rfl,
    ⟨rfl, rfl, rfl, rfl, rfl, rfl, rfl, rfl, rfl, rfl, rfl⟩, ?_⟩
  · intro seg hseg hne
    simp [lastSegmentJs, hseg, hne]
  · intro h
    simp [buildStructuredQuery, h, whereClauseOf]
  · intro w h
    simp [buildStructuredQuery, h, whereClauseOf]
  · intro h
    cases hws : cs.filter isWhereC with
    | nil => rw [hws] at h; simp at h
    | cons w1 rest =>
      cases rest with
      | nil => rw [hws] at h; simp at h
      | cons w2 rest2 =>
        simp only [buildStructuredQuery, hws]
        rfl
  · intro h
    simp [buildStructuredQuery, h, orderByClauseOf]
  · intro h
    simp [buildStructuredQuery, orderByClauseOf,
      List.isEmpty_iff, h]
  · intro op hop
    unfold mapOperatorToFirestore
    split
    all_goals first
      | rfl
      | (exfalso; apply hop; simp_all [mappedOps])

/-- Witness for C4 at a concrete query: two where constraints, one
orderBy, one limit. -/
theorem structured_query_shape_witness :
    (buildStructuredQuery "proj/users"
        [whereC "age" ">=" (vNum 18), orderByC "name" "desc",
          whereC "role" "==" (vStr "admin"), limitC 10]).whereClause =
      some (SQFilter.compositeFilter "AND"
        [SQFilter.fieldFilter ⟨⟨"age"⟩, "GREATER_THAN_OR_EQUAL", vNum 18⟩,
          SQFilter.fieldFilter ⟨⟨"role"⟩, "EQUAL", vStr "admin"⟩]) ∧
    (buildStructuredQuery "proj/users"
        [whereC "age" ">=" (vNum 18), orderByC "name" "desc",
          whereC "role" "==" (vStr "admin"), limitC 10]).fromClause =
      [⟨"users", false⟩] ∧
    (buildStructuredQuery "proj/users"
        [whereC "age" ">=" (vNum 18), orderByC "name" "desc",
          whereC "role" "==" (vStr "admin"), limitC 10]).orderBy =
      some [⟨⟨"name"⟩, "DESCENDING"⟩] ∧
    (buildStructuredQuery "proj/users"
        [whereC "age" ">=" (vNum 18), orderByC "name" "desc",
          whereC "role" "==" (vStr "admin"), limitC 10]).limit = some 10 ∧
    mapOperatorToFirestore "custom-op" = "custom-op" := by
  have h := structured_query_shape "proj/users"
    [whereC "age" ">=" (vNum 18), orderByC "name" "desc",
      whereC "role" "==" (vStr "admin"), limitC 10]
  refine ⟨?_, ?_, ?_, ?_, h.2.2.2.2.2.2.2.2.2.2 "custom-op" (by decide)⟩
  · have hc := h.2.2.2.1 (by decide)
    simpa [isWhereC, buildFieldFilter, mapOperatorToFirestore,
      toBasebaseValue] using hc
  · exact h.1.1
  · have ho := h.2.2.2.2.2.2.1 (by simp [List.filter_cons, isOrderByC])
    simpa [isOrderByC, buildOrderBy] using ho
  · simpa [findLimit] using h.2.2.2.2.2.2.2.2.1

/-! ## Heap model for snapshot data isolation (claim C10)

The structural `JsValue` model cannot express aliasing, so the deep
clone of `DocumentSnapshotImpl.data()` (part_005, lines 337-371) and
`deepClone` (part_000, lines 373-394) are verified against a heap
semantics: primitives are immediate, objects/arrays/dates live in heap
cells addressed by `Nat`; allocation appends; mutation overwrites one
cell.  `readA` materializes the value reachable from a root as a tree
together with its footprint (every cell address it dereferences). -/

inductive JPrim where
  | undefP : JPrim
  | null : JPrim
  | boolP (b : Bool) : JPrim
  | numP (n : Rat) : JPrim
  | strP (s : String) : JPrim

/-- A runtime value: an immediate primitive or a heap reference. -/
inductive JRef where
  | prim (p : JPrim) : JRef
  | ref (a : Nat) : JRef

/-- A heap cell: a `Date`, an array, or a plain object. -/
inductive HCell where
  | dateCell (t : Int) : HCell
  | arrCell (elems : List JRef) : HCell
  | objCell (fields : List (String × JRef)) : HCell

/-- The heap: cell at address `a` is `h[a]?`; allocation appends. -/
abbrev Heap := List HCell

/-- The value of a root as a tree (what a caller can observe of it). -/
inductive JTree where
  | prim (p : JPrim) : JTree
  | date (t : Int) : JTree
  | arr (ts : List JTree) : JTree
  | obj (keys : List String) (ts : List JTree) : JTree

/-- Read a list of roots with a given reader, concatenating
footprints. -/
def readListWith (rd : JRef → Option (JTree × List Nat)) :
    List JRef → Option (List JTree × List Nat)
  | [] => some ([], [])
  | e :: es =>
    match rd e with
    | none => none
    | some (t, as1) =>
      match readListWith rd es with
      | none => none
      | some (ts, as2) => some (t :: ts, as1 ++ as2)

/-- Fuel-bounded heap read: the tree reachable from a root plus its
footprint (every address dereferenced, including all descendants). -/
def readA : Nat → Heap → JRef → Option (JTree × List Nat)
  | 0, _, _ => none
  | _ + 1, _, .prim p => some (.prim p, [])
  | fuel + 1, h, .ref a =>
    match h[a]? with
    | none => none
    | some (.dateCell t) => some (.date t, [a])
    | some (.arrCell es) =>
      match readListWith (fun e => readA fuel h e) es with
      | none => none
      | some (ts, as) => some (.arr ts, a :: as)
    | some (.objCell fs) =>
      match readListWith (fun e => readA fuel h e) (fs.map Prod.snd) with
      | none => none
      | some (ts, as) => some (.obj (fs.map Prod.fst) ts, a :: as)

/-- Clone a list of roots left to right, threading the heap. -/
def cloneListWith (f : Heap → JRef → Option (Heap × JRef)) :
    Heap → List JRef → Option (Heap × List JRef)
  | h, [] => some (h, [])
  | h, e :: es =>
    match f h e with
    | none => none
    | some (h1, e1) =>
      match cloneListWith f h1 es with
      | none => none
      | some (h2, es2) => some (h2, e1 :: es2)

/-- Source: `deepClone` (part_000, lines 373-394) over the heap:
primitives are returned as-is, a `Date` becomes a fresh `Date` cell
with the same timestamp, an array a fresh cell of recursively cloned
elements, an object a fresh cell with the same keys in order and
recursively cloned values.  Fuel-bounded: the source recursion
terminates exactly on acyclic data. -/
def deepClone : Nat → Heap → JRef → Option (Heap × JRef)
  | 0, _, _ => none
  | _ + 1, h, .prim p => some (h, .prim p)
  | fuel + 1, h, .ref a =>
    match h[a]? with
    | none => none
    | some (.dateCell t) => some (h ++ [.dateCell t], .ref h.length)
    | some (.arrCell es) =>
      match cloneListWith (fun h' e => deepClone fuel h' e) h es with
      | none => none
      | some (h1, es1) => some (h1 ++ [.arrCell es1], .ref h1.length)
    | some (.objCell fs) =>
      match cloneListWith (fun h' e => deepClone fuel h' e) h
          (fs.map Prod.snd) with
      | none => none
      | some (h1, vs1) =>
        some (h1 ++ [.objCell ((fs.map Prod.fst).zip vs1)], .ref h1.length)

/-- `DocumentSnapshotImpl.data()` (part_005, lines 357-359):
`this._data ? deepClone(this._data) : undefined`. -/
def snapshotDataH (fuel : Nat) (h : Heap) :
    Option JRef → Option (Heap × JRef)
  | none => some (h, .prim .undefP)
  | some r => deepClone fuel h r

/-- Mutation: overwrite the cell at one address. -/
def heapSet (h : Heap) (a : Nat) (c : HCell) : Heap := h.set a c

theorem readListWith_mem
    (rd : JRef → Option (JTree × List Nat)) (es : List JRef)
    (ts : List JTree) (as : List Nat)
    (hr : readListWith rd es = some (ts, as)) :
    ∀ e ∈ es, ∃ t' as', rd e = some (t', as') ∧ as' ⊆ as := by
  induction es generalizing ts as with
  | nil => simp
  | cons e es ih =>
    rw [readListWith] at hr
    cases he : rd e with
    | none => simp [he] at hr
    | some x =>
      obtain ⟨t1, as1⟩ := x
      cases hrest : readListWith rd es with
      | none => simp [he, hrest] at hr
      | some y =>
        obtain ⟨ts2, as2⟩ := y
        simp only [he, hrest, Option.some.injEq, Prod.mk.injEq] at hr
        obtain ⟨hts, has⟩ := hr
        intro e' he'
        rcases List.mem_cons.mp he' with rfl | hmem
        · exact ⟨t1, as1, he, by
            rw [← has]; exact List.subset_append_left _ _⟩
        · obtain ⟨t', as', hrd, hsub⟩ := ih ts2 as2 hrest e' hmem
          exact ⟨t', as', hrd, by
            rw [← has]; exact hsub.trans (List.subset_append_right _ _)⟩

theorem readListWith_congr
    (rd rd' : JRef → Option (JTree × List Nat)) (es : List JRef)
    (hpt : ∀ e ∈ es, ∀ x, rd e = some x → rd' e = some x)
    (ts : List JTree) (as : List Nat)
    (hr : readListWith rd es = some (ts, as)) :
    readListWith rd' es = some (ts, as) := by
  induction es generalizing ts as with
  | nil => simpa using hr
  | cons e es ih =>
    rw [readListWith] at hr
    cases he : rd e with
    | none => simp [he] at hr
    | some x =>
      cases hrest : readListWith rd es with
      | none => simp [he, hrest] at hr
      | some y =>
        obtain ⟨ts2, as2⟩ := y
        simp only [he, hrest, Option.some.injEq] at hr
        rw [readListWith, hpt e (List.mem_cons_self _ _) x he,
          ih (fun e' he' => hpt e' (List.mem_cons_of_mem _ he')) ts2 as2
            hrest]
        simpa using hr

theorem readListWith_footprint
    (rd : JRef → Option (JTree × List Nat)) (es : List JRef)
    (ts : List JTree) (as : List Nat)
    (hr : readListWith rd es = some (ts, as)) (P : Nat → Prop)
    (hElem : ∀ e ∈ es, ∀ t' as', rd e = some (t', as') → ∀ a ∈ as', P a) :
    ∀ a ∈ as, P a := by
  induction es generalizing ts as with
  | nil =>
    rw [readListWith] at hr
    simp only [Option.some.injEq, Prod.mk.injEq] at hr
    rw [← hr.2]
    simp
  | cons e es ih =>
    rw [readListWith] at hr
    cases he : rd e with
    | none => simp [he] at hr
    | some x =>
      obtain ⟨t1, as1⟩ := x
      cases hrest : readListWith rd es with
      | none => simp [he, hrest] at hr
      | some y =>
        obtain ⟨ts2, as2⟩ := y
        simp only [he, hrest, Option.some.injEq, Prod.mk.injEq] at hr
        intro a ha
        rw [← hr.2] at ha
        rcases List.mem_append.mp ha with h1 | h2
        · exact hElem e (List.mem_cons_self _ _) t1 as1 he a h1
        · exact ih ts2 as2 hrest
            (fun e' he' => hElem e' (List.mem_cons_of_mem _ he')) a h2

theorem readA_footprint_lt (fuel : Nat) (h : Heap) (r : JRef)
    (t : JTree) (as : List Nat) (hr : readA fuel h r = some (t, as)) :
    ∀ a ∈ as, a < h.length := by
  induction fuel generalizing r t as with
  | zero => exact absurd hr (by simp [readA])
  | succ fuel ih =>
    cases r with
    | prim p =>
      rw [readA] at hr
      simp only [Option.some.injEq, Prod.mk.injEq] at hr
      rw [← hr.2]
      simp
    | ref a =>
      rw [readA] at hr
      cases hc : h[a]? with
      | none => simp [hc] at hr
      | some cell =>
        have ha : a < h.length := by
          by_contra hcon
          rw [List.getElem?_eq_none (by omega)] at hc
          exact absurd hc (by simp)
        cases cell with
        | dateCell t' =>
          simp only [hc, Option.some.injEq, Prod.mk.injEq] at hr
          rw [← hr.2]
          intro x hx
          simp only [List.mem_singleton] at hx
          omega
        | arrCell es =>
          simp only [hc] at hr
          cases hl : readListWith (fun e => readA fuel h e) es with
          | none => simp [hl] at hr
          | some y =>
            obtain ⟨ts2, as2⟩ := y
            simp only [hl, Option.some.injEq, Prod.mk.injEq] at hr
            intro x hx
            rw [← hr.2] at hx
            rcases List.mem_cons.mp hx with rfl | hmem
            · exact ha
            · exact readListWith_footprint _ es ts2 as2 hl
                (· < h.length)
                (fun e _ t' as' hrd => ih e t' as' hrd) x hmem
        | objCell fs =>
          simp only [hc] at hr
          cases hl : readListWith (fun e => readA fuel h e)
              (fs.map Prod.snd) with
          | none => simp [hl] at hr
          | some y =>
            obtain ⟨ts2, as2⟩ := y
            simp only [hl, Option.some.injEq, Prod.mk.injEq] at hr
            intro x hx
            rw [← hr.2] at hx
            rcases List.mem_cons.mp hx with rfl | hmem
            · exact ha
            · exact readListWith_footprint _ (fs.map Prod.snd) ts2 as2 hl
                (· < h.length)
                (fun e _ t' as' hrd => ih e t' as' hrd) x hmem

/-- A read depends only on the cells of its footprint: a heap agreeing
there yields the same tree and footprint. -/
theorem readA_agree (fuel : Nat) (h h' : Heap) (r : JRef) (t : JTree)
    (as : List Nat) (hr : readA fuel h r = some (t, as))
    (hag : ∀ a ∈ as, h'[a]? = h[a]?) :
    readA fuel h' r = some (t, as) := by
  induction fuel generalizing r t as with
  | zero => exact absurd hr (by simp [readA])
  | succ fuel ih =>
    cases r with
    | prim p =>
      rw [readA] at hr ⊢
      exact hr
    | ref a =>
      rw [readA] at hr
      cases hc : h[a]? with
      | none => simp [hc] at hr
      | some cell =>
        cases cell with
        | dateCell t' =>
          simp only [hc, Option.some.injEq, Prod.mk.injEq] at hr
          obtain ⟨ht, has⟩ := hr
          have hmem : a ∈ as := by rw [← has]; simp
          simp only [readA, hag a hmem, hc]
          rw [ht, has]
        | arrCell es =>
          simp only [hc] at hr
          cases hl : readListWith (fun e => readA fuel h e) es with
          | none => simp [hl] at hr
          | some y =>
            obtain ⟨ts2, as2⟩ := y
            simp only [hl, Option.some.injEq, Prod.mk.injEq] at hr
            obtain ⟨ht, has⟩ := hr
            have hmem : a ∈ as := by rw [← has]; simp
            have hpt : ∀ e ∈ es, ∀ x, readA fuel h e = some x →
                readA fuel h' e = some x := by
              intro e he x hx
              obtain ⟨t', as', hrd, hsub⟩ :=
                readListWith_mem _ es ts2 as2 hl e he
              rw [hx] at hrd
              simp only [Option.some.injEq] at hrd
              subst hrd
              exact ih e t' as' hx
                (fun b hb => hag b (by
                  rw [← has]
                  exact List.mem_cons_of_mem _ (hsub hb)))
            have hl' : readListWith (fun e => readA fuel h' e) es =
                some (ts2, as2) :=
              readListWith_congr _ _ es hpt ts2 as2 hl
            simp only [readA, hag a hmem, hc, hl']
            rw [ht, has]
        | objCell fs =>
          simp only [hc] at hr
          cases hl : readListWith (fun e => readA fuel h e)
              (fs.map Prod.snd) with
          | none => simp [hl] at hr
          | some y =>
            obtain ⟨ts2, as2⟩ := y
            simp only [hl, Option.some.injEq, Prod.mk.injEq] at hr
            obtain ⟨ht, has⟩ := hr
            have hmem : a ∈ as := by rw [← has]; simp
            have hpt : ∀ e ∈ fs.map Prod.snd, ∀ x, readA fuel h e = some x →
                readA fuel h' e = some x := by
              intro e he x hx
              obtain ⟨t', as', hrd, hsub⟩ :=
                readListWith_mem _ (fs.map Prod.snd) ts2 as2 hl e he
              rw [hx] at hrd
              simp only [Option.some.injEq] at hrd
              subst hrd
              exact ih e t' as' hx
                (fun b hb => hag b (by
                  rw [← has]
                  exact List.mem_cons_of_mem _ (hsub hb)))
            have hl' : readListWith (fun e => readA fuel h' e)
                (fs.map Prod.snd) = some (ts2, as2) :=
              readListWith_congr _ _ (fs.map Prod.snd) hpt ts2 as2 hl
            simp only [readA, hag a hmem, hc, hl']
            rw [ht, has]

/-- Appending fresh cells leaves every existing address readable
unchanged. -/
theorem heap_ext_agree (h ext : Heap) (as : List Nat)
    (hlt : ∀ a ∈ as, a < h.length) :
    ∀ a ∈ as, (h ++ ext)[a]? = h[a]? := by
  intro a ha
  rw [List.getElem?_append, if_pos (hlt a ha)]

/-- Correctness of `deepClone`: on readable data it succeeds, only
appends to the heap, and the clone reads back as the very same tree
while its entire footprint lies in the freshly allocated region. -/
theorem deepClone_spec (fuel : Nat) (h : Heap) (r : JRef) (t : JTree)
    (as : List Nat) (hr : readA fuel h r = some (t, as)) :
    ∃ h' r' as', deepClone fuel h r = some (h', r') ∧
      (∃ ext, h' = h ++ ext) ∧ readA fuel h' r' = some (t, as') ∧
      ∀ a ∈ as', h.length ≤ a := by
  induction fuel generalizing h r t as with
  | zero => exact absurd hr (by simp [readA])
  | succ fuel ih =>
    have hlist : ∀ (es : List JRef) (h0 : Heap) (ts : List JTree)
        (as : List Nat),
        readListWith (fun e => readA fuel h0 e) es = some (ts, as) →
        ∃ h1 es1 as1,
          cloneListWith (fun h' e => deepClone fuel h' e) h0 es =
            some (h1, es1) ∧
          (∃ ext, h1 = h0 ++ ext) ∧
          readListWith (fun e => readA fuel h1 e) es1 = some (ts, as1) ∧
          (∀ a ∈ as1, h0.length ≤ a) ∧ es1.length = es.length := by
      intro es
      induction es with
      | nil =>
        intro h0 ts as hr0
        simp only [readListWith, Option.some.injEq, Prod.mk.injEq] at hr0
        obtain ⟨hts, has⟩ := hr0
        subst hts
        subst has
        exact ⟨h0, [], [], rfl, ⟨[], by simp⟩, rfl, by simp, rfl⟩
      | cons e es ihes =>
        intro h0 ts as hr0
        rw [readListWith] at hr0
        cases he : readA fuel h0 e with
        | none => simp [he] at hr0
        | some x =>
          obtain ⟨t1, as1⟩ := x
          cases hrest : readListWith (fun e => readA fuel h0 e) es with
          | none => simp [he, hrest] at hr0
          | some y =>
            obtain ⟨ts2, as2⟩ := y
            simp only [he, hrest, Option.some.injEq, Prod.mk.injEq] at hr0
            obtain ⟨hts, has⟩ := hr0
            obtain ⟨h1, e1, as1', hcl1, ⟨ext1, hext1⟩, hread1, hfresh1⟩ :=
              ih h0 e t1 as1 he
            have hrest1 : readListWith (fun e => readA fuel h1 e) es =
                some (ts2, as2) := by
              refine readListWith_congr _ _ es ?_ ts2 as2 hrest
              intro e' he' x hx
              have hflt := readA_footprint_lt fuel h0 e' x.1 x.2 (by rw [hx])
              have hag01 : ∀ a ∈ x.2, h1[a]? = h0[a]? := by
                rw [hext1]
                exact heap_ext_agree h0 ext1 x.2 hflt
              exact readA_agree fuel h0 h1 e' x.1 x.2 (by rw [hx]) hag01
            obtain ⟨h2, es2', as2', hcl2, ⟨ext2, hext2⟩, hread2, hfresh2,
              hlen2⟩ := ihes h1 ts2 as2 hrest1
            have hflt1 : ∀ a ∈ as1', a < h1.length :=
              readA_footprint_lt fuel h1 e1 t1 as1' hread1
            have hag12 : ∀ a ∈ as1', h2[a]? = h1[a]? := by
              rw [hext2]
              exact heap_ext_agree h1 ext2 as1' hflt1
            have hread1' : readA fuel h2 e1 = some (t1, as1') :=
              readA_agree fuel h1 h2 e1 t1 as1' hread1 hag12
            have hlen1 : h0.length ≤ h1.length := by
              rw [hext1]; simp
            refine ⟨h2, e1 :: es2', as1' ++ as2', ?_,
              ⟨ext1 ++ ext2, by rw [hext2, hext1, List.append_assoc]⟩,
              ?_, ?_, by simp [hlen2]⟩
            · simp only [cloneListWith, hcl1, hcl2]
            · simp only [readListWith, hread1', hread2]
              rw [hts]
            · intro a ha
              rcases List.mem_append.mp ha with h1m | h2m
              · exact hfresh1 a h1m
              · exact le_trans hlen1 (hfresh2 a h2m)
    cases r with
    | prim p =>
      rw [readA] at hr
      simp only [Option.some.injEq, Prod.mk.injEq] at hr
      exact ⟨h, .prim p, [], by simp [deepClone], ⟨[], by simp⟩,
        by rw [readA, hr.1, hr.2], by simp⟩
    | ref a =>
      rw [readA] at hr
      cases hc : h[a]? with
      | none => simp [hc] at hr
      | some cell =>
        cases cell with
        | dateCell t' =>
          simp only [hc, Option.some.injEq, Prod.mk.injEq] at hr
          obtain ⟨ht, has⟩ := hr
          refine ⟨h ++ [.dateCell t'], .ref h.length, [h.length], ?_,
            ⟨[.dateCell t'], rfl⟩, ?_, ?_⟩
          · simp only [deepClone, hc]
          · simp only [readA, List.getElem?_concat_length]
            rw [ht]
          · intro x hx
            simp only [List.mem_singleton] at hx
            omega
        | arrCell es =>
          simp only [hc] at hr
          cases hl : readListWith (fun e => readA fuel h e) es with
          | none => simp [hl] at hr
          | some y =>
            obtain ⟨ts2, as2⟩ := y
            simp only [hl, Option.some.injEq, Prod.mk.injEq] at hr
            obtain ⟨ht, has⟩ := hr
            obtain ⟨h1, es1, as1', hcl, ⟨ext1, hext1⟩, hread1, hfresh1,
              hlen1⟩ := hlist es h ts2 as2 hl
            have hcell : (h1 ++ [HCell.arrCell es1])[h1.length]? =
                some (.arrCell es1) := List.getElem?_concat_length _ _
            have hread1' : readListWith
                (fun e => readA fuel (h1 ++ [HCell.arrCell es1]) e) es1 =
                some (ts2, as1') := by
              refine readListWith_congr _ _ es1 ?_ ts2 as1' hread1
              intro e' he' x hx
              exact readA_agree fuel h1 _ e' x.1 x.2 (by rw [hx])
                (heap_ext_agree h1 [HCell.arrCell es1] x.2
                  (readA_footprint_lt fuel h1 e' x.1 x.2 (by rw [hx])))
            have hlenh : h.length ≤ h1.length := by
              rw [hext1]; simp
            refine ⟨h1 ++ [.arrCell es1], .ref h1.length,
              h1.length :: as1', ?_,
              ⟨ext1 ++ [.arrCell es1], by rw [hext1, List.append_assoc]⟩,
              ?_, ?_⟩
            · simp only [deepClone, hc, hcl]
            · simp only [readA, hcell, hread1']
              rw [ht]
            · intro x hx
              rcases List.mem_cons.mp hx with rfl | hmem
              · exact hlenh
              · exact hfresh1 x hmem
        | objCell fs =>
          simp only [hc] at hr
          cases hl : readListWith (fun e => readA fuel h e)
              (fs.map Prod.snd) with
          | none => simp [hl] at hr
          | some y =>
            obtain ⟨ts2, as2⟩ := y
            simp only [hl, Option.some.injEq, Prod.mk.injEq] at hr
            obtain ⟨ht, has⟩ := hr
            obtain ⟨h1, es1, as1', hcl, ⟨ext1, hext1⟩, hread1, hfresh1,
              hlen1⟩ := hlist (fs.map Prod.snd) h ts2 as2 hl
            have hlenkeys : (fs.map Prod.fst).length = es1.length := by
              simp [hlen1]
            have hzip_snd : ((fs.map Prod.fst).zip es1).map Prod.snd =
                es1 := List.map_snd_zip _ _ (le_of_eq hlenkeys.symm)
            have hzip_fst : ((fs.map Prod.fst).zip es1).map Prod.fst =
                fs.map Prod.fst := List.map_fst_zip _ _ (le_of_eq hlenkeys)
            have hcell : (h1 ++
                [HCell.objCell ((fs.map Prod.fst).zip es1)])[h1.length]? =
                some (.objCell ((fs.map Prod.fst).zip es1)) :=
              List.getElem?_concat_length _ _
            have hread1' : readListWith
                (fun e => readA fuel
                  (h1 ++ [HCell.objCell ((fs.map Prod.fst).zip es1)]) e)
                (((fs.map Prod.fst).zip es1).map Prod.snd) =
                some (ts2, as1') := by
              rw [hzip_snd]
              refine readListWith_congr _ _ es1 ?_ ts2 as1' hread1
              intro e' he' x hx
              exact readA_agree fuel h1 _ e' x.1 x.2 (by rw [hx])
                (heap_ext_agree h1 _ x.2
                  (readA_footprint_lt fuel h1 e' x.1 x.2 (by rw [hx])))
            have hlenh : h.length ≤ h1.length := by
              rw [hext1]; simp
            refine ⟨h1 ++ [.objCell ((fs.map Prod.fst).zip es1)],
              .ref h1.length, h1.length :: as1', ?_,
              ⟨ext1 ++ [.objCell ((fs.map Prod.fst).zip es1)],
                by rw [hext1, List.append_assoc]⟩, ?_, ?_⟩
            · simp only [deepClone, hc, hcl]
            · simp only [readA, hcell, hread1']
              rw [hzip_fst, ht]
            · intro x hx
              rcases List.mem_cons.mp hx with rfl | hmem
              · exact hlenh
              · exact hfresh1 x hmem

/-- JS truthiness of a runtime value (heap objects are always truthy). -/
def jsTruthyR : JRef → Bool
  | .prim .undefP => false
  | .prim .null => false
  | .prim (.boolP b) => b
  | .prim (.numP n) => n ≠ 0
  | .prim (.strP s) => s ≠ ""
  | .ref _ => true

/-- First-occurrence field lookup in an object cell. -/
def assocFindR (k : String) : List (String × JRef) → Option JRef
  | [] => none
  | (k', v) :: rest => if k' = k then some v else assocFindR k rest

/-- JS data-property read `v[k]` over the heap: object fields, array
elements by digit-string index and `length`; prototype-chain properties
are not modelled. -/
def propGetH (h : Heap) (r : JRef) (k : String) : JRef :=
  match r with
  | .prim _ => .prim .undefP
  | .ref a =>
    match h[a]? with
    | some (.objCell fs) => (assocFindR k fs).getD (.prim .undefP)
    | some (.arrCell es) =>
      if k = "length" then .prim (.numP es.length)
      else
        match parseNatDigits k.data with
        | some i => es.getD i (.prim .undefP)
        | none => .prim .undefP
    | some (.dateCell _) => .prim .undefP
    | none => .prim .undefP

/-- `getNestedProperty` (part_000, lines 406-410) over the heap:
`path.split(".").reduce((current, key) => current && current[key] !==
undefined ? current[key] : undefined, obj)`; the `!== undefined`
ternary is the identity on the read result. -/
def getNestedPropertyH (h : Heap) : JRef → List String → JRef
  | r, [] => r
  | r, k :: ks =>
    if jsTruthyR r then getNestedPropertyH h (propGetH h r k) ks
    else .prim .undefP

/-- `r` denotes a readable value whose footprint lies inside `as`. -/
def ReadableWithin (h : Heap) (as : List Nat) (r : JRef) : Prop :=
  ∃ fuel t as', readA fuel h r = some (t, as') ∧ as' ⊆ as

theorem readableWithin_prim (h : Heap) (as : List Nat) (p : JPrim) :
    ReadableWithin h as (.prim p) :=
  ⟨1, .prim p, [], rfl, by simp⟩

theorem assocFindR_mem (k : String) (fs : List (String × JRef))
    (v : JRef) (hf : assocFindR k fs = some v) : v ∈ fs.map Prod.snd := by
  induction fs with
  | nil => simp [assocFindR] at hf
  | cons kv rest ih =>
    obtain ⟨k1, v1⟩ := kv
    rw [assocFindR] at hf
    by_cases hk : k1 = k
    · rw [if_pos hk] at hf
      simp only [Option.some.injEq] at hf
      simp [← hf]
    · rw [if_neg hk] at hf
      simp [ih hf]

/-- A property read from a readable value is itself readable within the
same footprint, and agrees between heaps agreeing on that footprint. -/
theorem propGetH_spec (h h' : Heap) (as : List Nat) (r : JRef)
    (k : String) (hr : ReadableWithin h as r)
    (hag : ∀ a ∈ as, h'[a]? = h[a]?) :
    propGetH h' r k = propGetH h r k ∧
    ReadableWithin h as (propGetH h r k) := by
  cases r with
  | prim p => exact ⟨rfl, readableWithin_prim h as .undefP⟩
  | ref a =>
    obtain ⟨fuel, t, as', hread, hsub⟩ := hr
    cases fuel with
    | zero => exact absurd hread (by simp [readA])
    | succ g =>
      rw [readA] at hread
      cases hc : h[a]? with
      | none => simp [hc] at hread
      | some cell =>
        have hmem_a : a ∈ as' := by
          cases cell with
          | dateCell t' =>
            simp only [hc, Option.some.injEq, Prod.mk.injEq] at hread
            rw [← hread.2]
            simp
          | arrCell es =>
            simp only [hc] at hread
            cases hl : readListWith (fun e => readA g h e) es with
            | none => simp [hl] at hread
            | some y =>
              simp only [hl, Option.some.injEq, Prod.mk.injEq] at hread
              rw [← hread.2]
              simp
          | objCell fs =>
            simp only [hc] at hread
            cases hl : readListWith (fun e => readA g h e)
                (fs.map Prod.snd) with
            | none => simp [hl] at hread
            | some y =>
              simp only [hl, Option.some.injEq, Prod.mk.injEq] at hread
              rw [← hread.2]
              simp
        have hceq : h'[a]? = h[a]? := hag a (hsub hmem_a)
        constructor
        · rw [propGetH, propGetH, hceq]
        · cases cell with
          | dateCell t' =>
            simp only [propGetH, hc]
            exact readableWithin_prim h as .undefP
          | arrCell es =>
            simp only [propGetH, hc]
            simp only [hc] at hread
            cases hl : readListWith (fun e => readA g h e) es with
            | none => simp [hl] at hread
            | some y =>
              obtain ⟨ts2, as2⟩ := y
              simp only [hl, Option.some.injEq, Prod.mk.injEq] at hread
              have hsub2 : as2 ⊆ as := by
                intro x hx
                exact hsub (by rw [← hread.2]; exact List.mem_cons_of_mem _ hx)
              by_cases hk : k = "length"
              · rw [if_pos hk]
                exact readableWithin_prim h as _
              · rw [if_neg hk]
                cases hp : parseNatDigits k.data with
                | none =>
                  simp only [hp]
                  exact readableWithin_prim h as .undefP
                | some i =>
                  simp only [hp]
                  by_cases hi : i < es.length
                  · have hmem : es.getD i (.prim .undefP) ∈ es := by
                      rw [List.getD_eq_getElem?_getD,
                        List.getElem?_eq_getElem hi]
                      simp only [Option.getD_some]
                      exact List.getElem_mem hi
                    obtain ⟨te, ae, hrde, hsube⟩ :=
                      readListWith_mem _ es ts2 as2 hl _ hmem
                    exact ⟨g, te, ae, hrde, hsube.trans hsub2⟩
                  · rw [List.getD_eq_default _ _ (by omega)]
                    exact readableWithin_prim h as .undefP
          | objCell fs =>
            simp only [propGetH, hc]
            simp only [hc] at hread
            cases hl : readListWith (fun e => readA g h e)
                (fs.map Prod.snd) with
            | none => simp [hl] at hread
            | some y =>
              obtain ⟨ts2, as2⟩ := y
              simp only [hl, Option.some.injEq, Prod.mk.injEq] at hread
              have hsub2 : as2 ⊆ as := by
                intro x hx
                exact hsub (by rw [← hread.2]; exact List.mem_cons_of_mem _ hx)
              cases hf : assocFindR k fs with
              | none =>
                simp only [hf, Option.getD_none]
                exact readableWithin_prim h as .undefP
              | some v =>
                simp only [hf, Option.getD_some]
                obtain ⟨te, ae, hrde, hsube⟩ :=
                  readListWith_mem _ (fs.map Prod.snd) ts2 as2 hl v
                    (assocFindR_mem k fs v hf)
                exact ⟨g, te, ae, hrde, hsube.trans hsub2⟩

/-- Dotted-path navigation agrees between heaps agreeing on the
footprint of the root, and its result stays readable within it. -/
theorem getNestedPropertyH_agree (h h' : Heap) (as : List Nat)
    (hag : ∀ a ∈ as, h'[a]? = h[a]?) :
    ∀ (ks : List String) (r : JRef), ReadableWithin h as r →
      getNestedPropertyH h' r ks = getNestedPropertyH h r ks ∧
      ReadableWithin h as (getNestedPropertyH h r ks) := by
  intro ks
  induction ks with
  | nil => exact fun r hr => ⟨rfl, hr⟩
  | cons k ks ih =>
    intro r hr
    rw [getNestedPropertyH, getNestedPropertyH]
    by_cases htr : jsTruthyR r
    · rw [if_pos htr, if_pos htr]
      obtain ⟨heq, hread⟩ := propGetH_spec h h' as r k hr hag
      rw [heq]
      exact ih (propGetH h r k) hread
    · rw [if_neg htr, if_neg htr]
      exact ⟨rfl, readableWithin_prim h as .undefP⟩

/-- C10: `data()` returns a fresh deep clone.  For a snapshot whose
stored data reads as tree `t`, `data()` (modelled by `snapshotDataH`,
which calls `deepClone`) succeeds, only allocates (the old heap is a
prefix of the new one), and returns a root that reads as the same tree
`t` but whose entire footprint lies in the freshly allocated region;
consequently, overwriting any cell `b` of the returned object — any
mutation of any part of it — with any content `c` (1) leaves the
snapshot's stored data reading as `t` with its original footprint, (2)
leaves any subsequent `data()` call returning a clone that still reads
as `t`, and (3) changes neither the navigation path nor the value of
any subsequent `get(fieldPath)` (modelled by `getNestedPropertyH` on
the split field path) on the same snapshot. -/
theorem snapshot_data_isolation (fuel : Nat) (h : Heap) (r : JRef)
    (t : JTree) (as : List Nat)
    (hread : readA fuel h r = some (t, as)) :
    ∃ h₁ r₁ as₁,
      snapshotDataH fuel h (some r) = some (h₁, r₁) ∧
      (∃ ext, h₁ = h ++ ext) ∧
      readA fuel h₁ r₁ = some (t, as₁) ∧
      (∀ a ∈ as₁, h.length ≤ a) ∧
      (∀ b ∈ as₁, ∀ c : HCell,
        readA fuel (heapSet h₁ b c) r = some (t, as) ∧
        (∃ h₂ r₂ as₂,
          snapshotDataH fuel (heapSet h₁ b c) (some r) = some (h₂, r₂) ∧
          readA fuel h₂ r₂ = some (t, as₂)) ∧
        (∀ ks : List String,
          getNestedPropertyH (heapSet h₁ b c) r ks =
            getNestedPropertyH h r ks ∧
          ∃ g t' as_g,
            readA g h (getNestedPropertyH h r ks) = some (t', as_g) ∧
            readA g (heapSet h₁ b c) (getNestedPropertyH h r ks) =
              some (t', as_g))) := by
  obtain ⟨h₁, r₁, as₁, hclone, ⟨ext, hext⟩, hread1, hfresh⟩ :=
    deepClone_spec fuel h r t as hread
  have hltas : ∀ a ∈ as, a < h.length := readA_footprint_lt fuel h r t as hread
  refine ⟨h₁, r₁, as₁, hclone, ⟨ext, hext⟩, hread1, hfresh, ?_⟩
  intro b hb c
  have hbge : h.length ≤ b := hfresh b hb
  have hag : ∀ a ∈ as, (heapSet h₁ b c)[a]? = h[a]? := by
    intro a ha
    have halt : a < h.length := hltas a ha
    have h1a : h₁[a]? = h[a]? := by
      rw [hext]
      exact heap_ext_agree h ext as hltas a ha
    rw [heapSet, List.getElem?_set_ne (by omega), h1a]
  have hmut : readA fuel (heapSet h₁ b c) r = some (t, as) :=
    readA_agree fuel h (heapSet h₁ b c) r t as hread hag
  refine ⟨hmut, ?_, ?_⟩
  · obtain ⟨h₂, r₂, as₂, hcl2, _, hread2, _⟩ :=
      deepClone_spec fuel (heapSet h₁ b c) r t as hmut
    exact ⟨h₂, r₂, as₂, hcl2, hread2⟩
  · intro ks
    obtain ⟨heqn, ⟨g, t', as_g, hreadg, hsubg⟩⟩ :=
      getNestedPropertyH_agree h (heapSet h₁ b c) as hag ks r
        ⟨fuel, t, as, hread, List.Subset.refl _⟩
    exact ⟨heqn, g, t', as_g, hreadg,
      readA_agree g h (heapSet h₁ b c) _ t' as_g hreadg
        (fun a ha => hag a (hsubg ha))⟩

/-- Witness for C10 on a concrete two-cell heap: an object
`{a: 1, nested: ["x"]}` stored at address 0 with its array at
address 1. -/
theorem snapshot_data_isolation_witness :
    ∃ h₁ r₁ as₁,
      snapshotDataH 3
          [HCell.objCell [("a", JRef.prim (JPrim.numP 1)),
            ("nested", JRef.ref 1)],
            HCell.arrCell [JRef.prim (JPrim.strP "x")]] (some (JRef.ref 0)) =
        some (h₁, r₁) ∧
      (∃ ext, h₁ =
        [HCell.objCell [("a", JRef.prim (JPrim.numP 1)),
          ("nested", JRef.ref 1)],
          HCell.arrCell [JRef.prim (JPrim.strP "x")]] ++ ext) ∧
      readA 3 h₁ r₁ =
        some (JTree.obj ["a", "nested"]
          [JTree.prim (JPrim.numP 1), JTree.arr [JTree.prim (JPrim.strP "x")]],
          as₁) ∧
      (∀ a ∈ as₁, (2 : Nat) ≤ a) ∧
      (∀ b ∈ as₁, ∀ c : HCell,
        readA 3 (heapSet h₁ b c) (JRef.ref 0) =
          some (JTree.obj ["a", "nested"]
            [JTree.prim (JPrim.numP 1),
              JTree.arr [JTree.prim (JPrim.strP "x")]], [0, 1]) ∧
        (∃ h₂ r₂ as₂,
          snapshotDataH 3 (heapSet h₁ b c) (some (JRef.ref 0)) =
            some (h₂, r₂) ∧
          readA 3 h₂ r₂ =
            some (JTree.obj ["a", "nested"]
              [JTree.prim (JPrim.numP 1),
                JTree.arr [JTree.prim (JPrim.strP "x")]], as₂)) ∧
        (∀ ks : List String,
          getNestedPropertyH (heapSet h₁ b c) (JRef.ref 0) ks =
            getNestedPropertyH
              [HCell.objCell [("a", JRef.prim (JPrim.numP 1)),
                ("nested", JRef.ref 1)],
                HCell.arrCell [JRef.prim (JPrim.strP "x")]] (JRef.ref 0) ks ∧
          ∃ g t' as_g,
            readA g
                [HCell.objCell [("a", JRef.prim (JPrim.numP 1)),
                  ("nested", JRef.ref 1)],
                  HCell.arrCell [JRef.prim (JPrim.strP "x")]]
                (getNestedPropertyH
                  [HCell.objCell [("a", JRef.prim (JPrim.numP 1)),
                    ("nested", JRef.ref 1)],
                    HCell.arrCell [JRef.prim (JPrim.strP "x")]]
                  (JRef.ref 0) ks) = some (t', as_g) ∧
            readA g (heapSet h₁ b c)
                (getNestedPropertyH
                  [HCell.objCell [("a", JRef.prim (JPrim.numP 1)),
                    ("nested", JRef.ref 1)],
                    HCell.arrCell [JRef.prim (JPrim.strP "x")]]
                  (JRef.ref 0) ks) = some (t', as_g))) :=
  snapshot_data_isolation 3
    [HCell.objCell [("a", JRef.prim (JPrim.numP 1)), ("nested", JRef.ref 1)],
      HCell.arrCell [JRef.prim (JPrim.strP "x")]]
    (JRef.ref 0)
    (JTree.obj ["a", "nested"]
      [JTree.prim (JPrim.numP 1), JTree.arr [JTree.prim (JPrim.strP "x")]])
    [0, 1] (by rfl)

end Basebase
